import Mathlib

/-!
Verification of the histogram-based calibration engine
(`modelopt/torch/quantization/calib/histogram.py`).

The embedding models tensor values as rationals (exact arithmetic), tensor
batches as lists of rationals, and histogram counts as natural numbers.
The incremental collector (`HistogramCalibrator.collect` / `reset`) is
modelled as a state-transition function; the three threshold searches
(`_compute_amax_entropy`, `_compute_amax_mse`, `_compute_amax_percentile`)
are modelled as functions returning `Except` (for the `raise` branches)
of the computed amax together with the post-call contents of the caller's
counts and bin-edges arrays (numpy slices alias the caller's buffer, so a
search can mutate them; returning the post-call arrays makes that effect
visible).

External third-party primitives that the source merely calls
(`scipy.stats.entropy`, `fake_tensor_quant`, `scaled_e4m3`) are taken as
oracle parameters: the source uses them only as scoring black boxes.
-/

namespace HistCalib

/-! ### Generic list helpers (models of numpy/torch primitives) -/

/-- Model of `np.min` / `torch.min` on a nonempty list (0 on `[]`, which the
source would reject with an error; theorems assume nonempty batches). -/
def listMin : List ℚ → ℚ
  | [] => 0
  | [a] => a
  | a :: b :: t => min a (listMin (b :: t))

/-- Model of `np.max` / `torch.max` on a nonempty list. -/
def listMax : List ℚ → ℚ
  | [] => 0
  | [a] => a
  | a :: b :: t => max a (listMax (b :: t))

/-- Increment the `j`-th counter of a list of bin counts. -/
def bump : List ℕ → ℕ → List ℕ
  | [], _ => []
  | a :: t, 0 => (a + 1) :: t
  | a :: t, j + 1 => a :: bump t j

/-- `h[: len(old)] += old` : add an old counts array element-wise into the
prefix of a (at least as long) new counts array. -/
def addOldCounts : List ℕ → List ℕ → List ℕ
  | h, [] => h
  | [], _ => []
  | a :: h, b :: old => (a + b) :: addOldCounts h old

/-- Model of `np.linspace a b (n+1)` : `n + 1` evenly spaced points from
`a` to `b`. -/
def linspaceQ (a b : ℚ) (n : ℕ) : List ℚ :=
  (List.range (n + 1)).map (fun (j : ℕ) => a + (b - a) * (j : ℚ) / (n : ℚ))

/-- Model of `np.arange start stop step` for positive `step`. -/
def arangeQ (start stop step : ℚ) : List ℚ :=
  (List.range (⌈(stop - start) / step⌉.toNat)).map
    (fun (k : ℕ) => start + (k : ℚ) * step)

/-- Model of Python `range(a, b, s)` for `s ≥ 1`. -/
def pyRange (a b s : ℕ) : List ℕ :=
  (List.range ((b - a + s - 1) / s)).map (fun k => a + s * k)

/-- Uniform-bin histogram counting: the semantics of `torch.histc n lo hi`
and of `np.histogram` with a uniform range: value `v` lands in bin
`⌊(v - lo) * n / (hi - lo)⌋`, clamped so that `v = hi` lands in the last
bin; values outside `[lo, hi]` are ignored. -/
def histUniform (n : ℕ) (lo hi : ℚ) (xs : List ℚ) : List ℕ :=
  xs.foldl
    (fun acc v =>
      if lo ≤ v ∧ v ≤ hi then
        bump acc (min (⌊(v - lo) * n / (hi - lo)⌋.toNat) (n - 1))
      else acc)
    (List.replicate n 0)

/-- Bin index for histogramming with an explicit edge list (numpy
semantics: half-open bins, last bin closed, out-of-range values dropped). -/
def binOfEdges (edges : List ℚ) (v : ℚ) : Option ℕ :=
  if edges.length < 2 then none
  else if v < edges.getD 0 0 ∨ edges.getD (edges.length - 1) 0 < v then none
  else some (((edges.drop 1).take (edges.length - 2)).countP (fun e => decide (e ≤ v)))

/-- Model of `np.histogram xs (bins := edges)` with explicit edges. -/
def histByEdges (edges : List ℚ) (xs : List ℚ) : List ℕ :=
  xs.foldl
    (fun acc v =>
      match binOfEdges edges v with
      | none => acc
      | some j => bump acc j)
    (List.replicate (edges.length - 1) 0)

/-- Model of `np.histogram xs (bins := n)` with automatic range: the range
is `[min xs, max xs]`, widened by `1/2` on both sides when degenerate, and
`[0, 1]` for an empty input. Returns `(counts, edges)`. -/
def npHistogramAuto (n : ℕ) (xs : List ℚ) : List ℕ × List ℚ :=
  if xs = [] then (List.replicate n 0, linspaceQ 0 1 n)
  else
    let a := listMin xs
    let b := listMax xs
    if a = b then (histUniform n (a - 1/2) (b + 1/2) xs, linspaceQ (a - 1/2) (b + 1/2) n)
    else (histUniform n a b xs, linspaceQ a b n)

/-! ### The incremental histogram collector (`HistogramCalibrator`) -/

/-- The mutable state of a `HistogramCalibrator`: the constructor
parameters that the collection path reads, plus the histogram state.
`_num_bins` is mutable state (the torch-mode extension rewrites it). -/
structure CalibState where
  num_bins : ℕ
  skip_zeros : Bool
  torch_hist : Bool
  calib_bin_edges : Option (List ℚ)
  calib_hist : Option (List ℕ)
deriving DecidableEq, Repr

/-- `HistogramCalibrator.__init__` (per-tensor path; `axis` must be `None`). -/
def initState (num_bins : ℕ) (skip_zeros torch_hist : Bool) : CalibState :=
  ⟨num_bins, skip_zeros, torch_hist, none, none⟩

/-- `HistogramCalibrator.reset` : drops the histogram (and nothing else). -/
def resetState (s : CalibState) : CalibState :=
  { s with calib_bin_edges := none, calib_hist := none }

/-- The numpy branch of `collect`, applied to the preprocessed batch
(absolute values taken, zeros dropped when `skip_zeros` — both branches
of the source perform this preprocessing first, so it is hoisted into
`collect`). -/
def collectNp (s : CalibState) (x : List ℚ) : CalibState :=
  match s.calib_bin_edges, s.calib_hist with
  | none, none =>
    let he := npHistogramAuto s.num_bins x
    { s with calib_hist := some he.1, calib_bin_edges := some he.2 }
  | edges?, hist? =>
    let edges := edges?.getD []
    let hist := hist?.getD []
    let temp_amax := listMax x
    let edges :=
      if edges.getD (edges.length - 1) 0 < temp_amax then
        let width := edges.getD 1 0 - edges.getD 0 0
        edges ++ arangeQ (edges.getD (edges.length - 1) 0 + width) (temp_amax + width) width
      else edges
    let h := addOldCounts (histByEdges edges x) hist
    { s with calib_bin_edges := some edges, calib_hist := some h }

/-- The torch branch of `collect`, applied to the preprocessed batch
(see `collectNp`). A range extension recomputes `_num_bins` as
`⌈x_max / width⌉` and rebuilds the edges as
`arange 0 (x_max + width) width`. -/
def collectTorch (s : CalibState) (x : List ℚ) : CalibState :=
  let x_max := listMax x
  match s.calib_bin_edges, s.calib_hist with
  | none, none =>
    { s with calib_hist := some (histUniform s.num_bins 0 x_max x),
             calib_bin_edges := some (linspaceQ 0 x_max s.num_bins) }
  | edges?, hist? =>
    let edges := edges?.getD []
    let hist := hist?.getD []
    let p :=
      if edges.getD (edges.length - 1) 0 < x_max then
        let width := edges.getD 1 0 - edges.getD 0 0
        ((⌈x_max / width⌉).toNat, arangeQ 0 (x_max + width) width)
      else (s.num_bins, edges)
    let h := histUniform p.1 0 (p.2.getD (p.2.length - 1) 0) x
    { s with num_bins := p.1, calib_bin_edges := some p.2,
             calib_hist := some (addOldCounts h hist) }

/-- The values a `collect` call actually histograms: absolute values are
taken when any value is negative (`if torch.min(x) < 0.0: x = x.abs()`),
then zeros are dropped when `skip_zeros` is set. -/
def procBatch (skip_zeros : Bool) (x : List ℚ) : List ℚ :=
  let x := if listMin x < 0 then x.map (fun v => |v|) else x
  if skip_zeros then x.filter (fun v => v ≠ 0) else x

/-- `HistogramCalibrator.collect` : preprocess the batch, then dispatch on
`torch_hist`. -/
def collect (s : CalibState) (x : List ℚ) : CalibState :=
  if s.torch_hist = false then collectNp s (procBatch s.skip_zeros x)
  else collectTorch s (procBatch s.skip_zeros x)

/-- Feed a sequence of batches. -/
def collectSeq (s : CalibState) (bs : List (List ℚ)) : CalibState :=
  bs.foldl collect s

/-! ### The threshold search engine -/

/-- The error kinds the three search functions can raise:
`runtimeErr` for the entropy search's count-mismatch `RuntimeError`,
`valueErr` for the percentile range `ValueError`,
`typeErr` for the MSE search's invalid-`num_bits` `TypeError`. -/
inductive CalibErr where
  | runtimeErr
  | valueErr
  | typeErr
deriving DecidableEq, Repr

/-- A search result: the computed amax (if any data was ever collected)
together with the post-call contents of the caller's counts array and
bin-edges array (numpy slices alias the caller's buffers, so in-place
writes inside a search are visible to the caller). -/
abbrev SearchOut := Option ℚ × Option (List ℚ) × Option (List ℚ)

/-- Model of `np.argmin` : index of the first occurrence of the minimum. -/
def argminIdx : List ℚ → ℕ
  | [] => 0
  | [_] => 0
  | a :: b :: t => if a ≤ listMin (b :: t) then 0 else argminIdx (b :: t) + 1

/-- Model of `np.digitize v space` for an increasing `space`
(`right=False`): the number of edges that are `≤ v`. -/
def digitizeCount (v : ℚ) (space : List ℚ) : ℕ :=
  space.countP (fun e => decide (e ≤ v))

/-- `digitized_space[idx]` in `_compute_amax_entropy` after the zero-bin
masking: `-1` when the bin count is zero, otherwise
`np.digitize(idx, linspace 0 i (nbins+1)) - 1`. -/
def digitizedAt (bins : List ℚ) (nbins i idx : ℕ) : ℤ :=
  if bins.getD idx 0 = 0 then -1
  else (digitizeCount (idx : ℚ) (linspaceQ 0 (i : ℚ) nbins) : ℤ) - 1

/-- Number of non-masked original bins digitized into quantized bin `k`
(the `Counter` value for key `k`). -/
def groupCount (bins : List ℚ) (nbins i k : ℕ) : ℕ :=
  ((Finset.range i).filter (fun idx => digitizedAt bins nbins i idx = (k : ℤ))).card

/-- Total original count accumulated into quantized bin `k`
(`new_density_counts[k]` before averaging). -/
def groupSum (bins : List ℚ) (nbins i k : ℕ) : ℚ :=
  ∑ idx ∈ (Finset.range i).filter (fun idx => digitizedAt bins nbins i idx = (k : ℤ)),
    bins.getD idx 0

/-- `new_density` : each non-masked original bin is replaced by the
average count of its quantized group; masked (zero-count) bins stay `0`. -/
def newDensity (bins : List ℚ) (nbins i : ℕ) : List ℚ :=
  (List.range i).map (fun idx =>
    let d := digitizedAt bins nbins i idx
    if d = -1 then 0
    else groupSum bins nbins i d.toNat / (groupCount bins nbins i d.toNat : ℚ))

/-- `reference_density` : the first `i` bins with all mass beyond `i`
folded into bin `i - 1`. -/
def referenceDensity (bins : List ℚ) (i : ℕ) : List ℚ :=
  let r := bins.take i
  r.set (i - 1) (r.getD (i - 1) 0 + (bins.drop i).sum)

/-- `total_counts_new` : unnormalized mass of the quantized distribution
plus the mass beyond the cut. -/
def entropyMassNew (bins : List ℚ) (nbins i : ℕ) : ℚ :=
  (newDensity bins nbins i).sum + (bins.drop i).sum

/-- `total_counts_old` : unnormalized mass of the reference distribution. -/
def entropyMassOld (bins : List ℚ) (i : ℕ) : ℚ :=
  (referenceDensity bins i).sum

/-- One iteration of the entropy-search loop at cut index `i`: check the
masses against the total (the `RuntimeError` branch), then score the pair
of distributions with the KL-divergence oracle `div` (the source's
`_normalize_distr` rebinds a local and never mutates its argument, and
`scipy.stats.entropy` renormalizes internally, so the oracle receives the
unnormalized arrays exactly as in the source). -/
def entropyStep (div : List ℚ → List ℚ → ℚ) (bins : List ℚ) (nbins : ℕ)
    (total_data : ℚ) (i : ℕ) : Except CalibErr ℚ :=
  if (round (entropyMassNew bins nbins i) : ℚ) ≠ total_data ∨
     (round (entropyMassOld bins i) : ℚ) ≠ total_data then
    .error .runtimeErr
  else
    .ok (div (referenceDensity bins i) (newDensity bins nbins i))

/-- Run `entropyStep` over the candidate list, propagating the first
error (the loop body raises out of `_compute_amax_entropy`). -/
def collectDivs (div : List ℚ → List ℚ → ℚ) (bins : List ℚ) (nbins : ℕ)
    (total_data : ℚ) : List ℕ → Except CalibErr (List ℚ)
  | [] => .ok []
  | i :: rest =>
    match entropyStep div bins nbins total_data i with
    | .error e => .error e
    | .ok d =>
      match collectDivs div bins nbins total_data rest with
      | .error e => .error e
      | .ok ds => .ok (d :: ds)

/-- `last_argmin = len(divergences) - 1 - np.argmin(divergences[::-1])` :
the index selected by the entropy search. -/
def lastArgminIdx (l : List ℚ) : ℕ :=
  l.length - 1 - argminIdx l.reverse

/-- The list of KL divergences the entropy-search loop computes: one per
candidate cut index in `range(start_bin, len(bins) + 1, stride)`. -/
def entropyDivList (div : List ℚ → List ℚ → ℚ) (bins : List ℚ)
    (nbins st sb : ℕ) : List ℚ :=
  (pyRange sb (bins.length + 1) st).map
    (fun i => div (referenceDensity bins i) (newDensity bins nbins i))

/-- `_compute_amax_entropy`. `div` is the `scipy.stats.entropy` scoring
oracle (applied to `(reference_density, new_density)`).
`bins = calib_hist[:]` is a numpy *view* of the caller's array, so
`bins[0] = bins[1]` writes through to the caller: the returned counts
array is the mutated `bins`, not the original input. -/
def computeAmaxEntropy (div : List ℚ → List ℚ → ℚ)
    (calib_hist : Option (List ℚ)) (calib_bin_edges : Option (List ℚ))
    (num_bits : ℕ) (unsigned : Bool) (stride start_bin : ℕ) :
    Except CalibErr SearchOut :=
  match calib_hist, calib_bin_edges with
  | none, none => .ok (none, none, none)
  | hist?, edges? =>
    let hist := hist?.getD []
    let edges := edges?.getD []
    let bins := hist.set 0 (hist.getD 1 0)
    let total_data := bins.sum
    let nbins := 2 ^ (num_bits - 1 + (if unsigned then 1 else 0))
    match collectDivs div bins nbins total_data
        (pyRange start_bin (bins.length + 1) stride) with
    | .error e => .error e
    | .ok divergences =>
      .ok (some (edges.getD (lastArgminIdx divergences * stride + start_bin) 0),
        some bins, some edges)

/-- The `num_bits` argument of the MSE search: a plain bit width or the
`(exponent, mantissa)` tuple selecting the float micro-format path. -/
inductive NumBits where
  | int (n : ℕ)
  | tup (a b : ℕ)
deriving DecidableEq, Repr

/-- Bin centers `(edges[1:] + edges[:-1]) / 2`. -/
def centersOf (edges : List ℚ) : List ℚ :=
  (edges.zip (edges.drop 1)).map (fun p => (p.2 + p.1) / 2)

/-- The MSE score of candidate threshold `amax`: counts-weighted mean
squared error between the centers and their fake-quantized images under
the quantization oracle `fq` (value, amax ↦ quantized value). -/
def mseScoreAt (fq : ℚ → ℚ → ℚ) (centers counts : List ℚ) (amax : ℚ) : ℚ :=
  (((centers.zip counts).map (fun p => (fq p.1 amax - p.1) ^ 2 * p.2)).sum) /
    (centers.length : ℚ)

/-- One iteration of the MSE loop at candidate index `i` : dispatch on
`num_bits` (integer → `fake_tensor_quant` oracle `fqInt`; `(4,3)` →
`scaled_e4m3` oracle `fqE4m3`; anything else raises `TypeError`). -/
def mseStep (fqInt fqE4m3 : ℚ → ℚ → ℚ) (num_bits : NumBits)
    (centers counts : List ℚ) (i : ℕ) : Except CalibErr ℚ :=
  let amax := centers.getD i 0
  match num_bits with
  | .int _ => .ok (mseScoreAt fqInt centers counts amax)
  | .tup a b =>
    if a = 4 ∧ b = 3 then .ok (mseScoreAt fqE4m3 centers counts amax)
    else .error .typeErr

/-- The list of MSE scores the search loop computes: one per candidate
index in `range(start_bin, len(centers), stride)`. -/
def mseScores (fq : ℚ → ℚ → ℚ) (centers counts : List ℚ) (st sb : ℕ) : List ℚ :=
  (pyRange sb centers.length st).map
    (fun i => mseScoreAt fq centers counts (centers.getD i 0))

/-- Run `mseStep` over the candidate list. -/
def collectMses (fqInt fqE4m3 : ℚ → ℚ → ℚ) (num_bits : NumBits)
    (centers counts : List ℚ) : List ℕ → Except CalibErr (List ℚ)
  | [] => .ok []
  | i :: rest =>
    match mseStep fqInt fqE4m3 num_bits centers counts i with
    | .error e => .error e
    | .ok m =>
      match collectMses fqInt fqE4m3 num_bits centers counts rest with
      | .error e => .error e
      | .ok ms => .ok (m :: ms)

/-- `_compute_amax_mse`. `fqInt` / `fqE4m3` are the external
fake-quantization scoring oracles (`fake_tensor_quant`, `scaled_e4m3`).
The torch conversions copy the arrays, so the caller's buffers come back
unchanged. -/
def computeAmaxMse (fqInt fqE4m3 : ℚ → ℚ → ℚ)
    (calib_hist : Option (List ℚ)) (calib_bin_edges : Option (List ℚ))
    (num_bits : NumBits) (stride start_bin : ℕ) :
    Except CalibErr SearchOut :=
  match calib_hist, calib_bin_edges with
  | none, none => .ok (none, none, none)
  | hist?, edges? =>
    let counts := hist?.getD []
    let edges := edges?.getD []
    let centers := centersOf edges
    let arguments := pyRange start_bin centers.length stride
    match collectMses fqInt fqE4m3 num_bits centers counts arguments with
    | .error e => .error e
    | .ok mses =>
      let am := argminIdx mses
      .ok (some (centers.getD (arguments.getD am 0) 0), hist?, edges?)

/-- Running sums (`np.cumsum`) starting from accumulator `acc`. -/
def cumsumFrom (acc : ℚ) : List ℚ → List ℚ
  | [] => []
  | x :: t => (acc + x) :: cumsumFrom (acc + x) t

/-- Model of `np.cumsum`. -/
def cumsumQ (l : List ℚ) : List ℚ := cumsumFrom 0 l

/-- The bin-edge index chosen by the percentile search:
`np.searchsorted(cdf, percentile / 100)` with `side='left'`, i.e. the
first index whose cumulative mass is `≥ percentile / 100` (the list
length when none is). -/
def percentileIdx (hist : List ℚ) (percentile : ℚ) : ℕ :=
  let total := hist.sum
  let cdf := cumsumQ (hist.map (fun c => c / total))
  cdf.findIdx (fun c => decide (percentile / 100 ≤ c))

/-- `_compute_amax_percentile`. The percentile validation runs before the
empty-state check, exactly as in the source. -/
def computeAmaxPercentile (calib_hist : Option (List ℚ))
    (calib_bin_edges : Option (List ℚ)) (percentile : ℚ) :
    Except CalibErr SearchOut :=
  if percentile < 0 ∨ 100 < percentile then .error .valueErr
  else
    match calib_hist, calib_bin_edges with
    | none, none => .ok (none, none, none)
    | hist?, edges? =>
      let hist := hist?.getD []
      let edges := edges?.getD []
      .ok (some (edges.getD (percentileIdx hist percentile) 0), hist?, edges?)

/-! ### The per-channel weight calibration driver (`calibrate_weights`) -/

/-- Maximum absolute value of a list (the per-channel `amax`). -/
def maxAbs (l : List ℚ) : ℚ :=
  (l.map (fun v => |v|)).foldl max 0

/-- A shaped tensor of rationals: shape plus row-major flat data. -/
structure TensorQ where
  shape : List ℕ
  data : List ℚ
deriving DecidableEq, Repr

/-- `torch.stack` of a list of same-shaped tensors. -/
def stackTensors (ts : List TensorQ) : TensorQ :=
  ⟨ts.length :: (ts.headD ⟨[], []⟩).shape, (ts.map TensorQ.data).flatten⟩

/-- `reshape` (valid when the element counts agree; row-major data is
unchanged). -/
def reshapeT (t : TensorQ) (s : List ℕ) : TensorQ := ⟨s, t.data⟩

/-- `numel`. -/
def numelT (t : TensorQ) : ℕ := t.shape.prod

/-- Modelled from the spec: `quant_utils.reduce_amax(module.weight,
axis=reduce_axis)` with `reduce_axis` covering every axis except channel
axis 0 (`convert_quantization_axis_to_reduce_axis`); both live outside
`src/`. Per the spec, the `max` method "uses the raw per-channel maximum
absolute value", reassembled keepdim-style as shape `[C,1,1,1]` for a 4-D
weight. The weight is given as its `c` channel slices (each slice the
flattened `d1*d2*d3` entries). -/
def reduceAmaxChannel0 (c _d1 _d2 _d3 : ℕ) (slices : List (List ℚ)) : TensorQ :=
  ⟨[c, 1, 1, 1], slices.map maxAbs⟩

/-- The value `calibrate_weights` writes to `weight_quantizer.amax` :
either a full tensor or (after `squeeze_` when `numel == 1`) a bare
scalar. -/
inductive AmaxResult where
  | scalar (v : ℚ)
  | tensor (t : TensorQ)
deriving DecidableEq, Repr

/-- The `method="max"`, `perchannel=True`, channel-axis-0 path of
`calibrate_weights` for a 4-D weight with `c` output channels: the
per-channel maxima tensor is stacked, reshaped to `[c, 1, 1, 1]`
(`[1]*dim` with the channel axis holding `c`), and squeezed to a scalar
when it has exactly one element. The returned value models what is
written to the module's `weight_quantizer.amax`. (The histogram that the
source also collects on this path never influences the `max` result.) -/
def calibrateWeightsMaxPerChannel (c d1 d2 d3 : ℕ) (slices : List (List ℚ)) :
    AmaxResult :=
  let calib_amax := [reduceAmaxChannel0 c d1 d2 d3 slices]
  let calib_amax_shape := [c, 1, 1, 1]
  let t := reshapeT (stackTensors calib_amax) calib_amax_shape
  if numelT t = 1 then AmaxResult.scalar (t.data.headD 0) else AmaxResult.tensor t

/-! ### Proof-side descriptions of reachable collector states -/

/-- Evenly spaced edges `0, w, 2w, …, mw` — the shape of every torch-mode
edge array (`linspace 0 x_max num_bins+1` and `arange 0 (x_max+w) w`). -/
def uniformEdges (w : ℚ) (m : ℕ) : List ℚ :=
  (List.range (m + 1)).map (fun (k : ℕ) => (k : ℚ) * w)

/-- Invariant of torch-mode collector states that have collected at least
once: the edges are `m + 1` uniform edges of positive width `w`, the
stored bin count is `m`, and the histogram has `m` bins. -/
def TorchGood (s : CalibState) : Prop :=
  s.torch_hist = true ∧
  ∃ w m h, 0 < w ∧ 1 ≤ m ∧ s.num_bins = m ∧
    s.calib_bin_edges = some (uniformEdges w m) ∧
    s.calib_hist = some h ∧ h.length = m

/-- Invariant of numpy-mode collector states that have collected at least
once: strictly increasing edges, one more edge than bins. -/
def NpGood (s : CalibState) : Prop :=
  s.torch_hist = false ∧
  ∃ e h, e.Pairwise (· < ·) ∧ 2 ≤ e.length ∧
    s.calib_bin_edges = some e ∧ s.calib_hist = some h ∧
    h.length + 1 = e.length

/-- Total count stored in a collector's histogram. -/
def histSum (s : CalibState) : ℕ := (s.calib_hist.getD []).sum

/-! ### Basic lemmas about the list helpers -/

theorem listMin_le_mem : ∀ (l : List ℚ) (x : ℚ), x ∈ l → listMin l ≤ x
  | [], x, hx => absurd hx (List.not_mem_nil x)
  | [a], x, hx => by
    rcases List.mem_singleton.mp hx with rfl
    exact le_refl _
  | a :: b :: t, x, hx => by
    rcases List.mem_cons.mp hx with rfl | hx
    · exact min_le_left _ _
    · exact le_trans (min_le_right _ _) (listMin_le_mem (b :: t) x hx)

theorem mem_le_listMax : ∀ (l : List ℚ) (x : ℚ), x ∈ l → x ≤ listMax l
  | [], x, hx => absurd hx (List.not_mem_nil x)
  | [a], x, hx => by
    rcases List.mem_singleton.mp hx with rfl
    exact le_refl _
  | a :: b :: t, x, hx => by
    rcases List.mem_cons.mp hx with rfl | hx
    · exact le_max_left _ _
    · exact le_trans (mem_le_listMax (b :: t) x hx) (le_max_right _ _)

theorem bump_length : ∀ (l : List ℕ) (j : ℕ), (bump l j).length = l.length
  | [], _ => rfl
  | _ :: _, 0 => rfl
  | a :: t, j + 1 => by simpa [bump] using bump_length t j

theorem bump_sum : ∀ (l : List ℕ) (j : ℕ), j < l.length → (bump l j).sum = l.sum + 1
  | [], j, h => absurd h (by simp)
  | a :: t, 0, _ => by simp [bump]; omega
  | a :: t, j + 1, h => by
    have := bump_sum t j (by simpa using h)
    simp [bump, this]; omega

theorem addOldCounts_length :
    ∀ (h old : List ℕ), (addOldCounts h old).length = h.length
  | h, [] => by cases h <;> rfl
  | [], _ :: _ => rfl
  | a :: h, b :: old => by simpa [addOldCounts] using addOldCounts_length h old

theorem addOldCounts_sum :
    ∀ (h old : List ℕ), old.length ≤ h.length →
      (addOldCounts h old).sum = h.sum + old.sum
  | h, [], _ => by cases h <;> simp [addOldCounts]
  | [], b :: old, hle => by simp at hle
  | a :: h, b :: old, hle => by
    have := addOldCounts_sum h old (by simpa using hle)
    simp [addOldCounts, this]; omega

theorem getD_map_range {α : Type} (n j : ℕ) (f : ℕ → α) (d : α) (hj : j < n) :
    ((List.range n).map f).getD j d = f j := by
  rw [List.getD_eq_getElem?_getD, List.getElem?_map, List.getElem?_range hj]
  rfl

theorem length_map_range {α : Type} (n : ℕ) (f : ℕ → α) :
    ((List.range n).map f).length = n := by simp

theorem histUniform_length (n : ℕ) (lo hi : ℚ) (xs : List ℚ) :
    (histUniform n lo hi xs).length = n := by
  suffices h : ∀ (acc : List ℕ), (xs.foldl
      (fun acc v =>
        if lo ≤ v ∧ v ≤ hi then
          bump acc (min (⌊(v - lo) * n / (hi - lo)⌋.toNat) (n - 1))
        else acc) acc).length = acc.length by
    simpa [histUniform] using h (List.replicate n 0)
  intro acc
  induction xs generalizing acc with
  | nil => rfl
  | cons v t ih =>
    simp only [List.foldl_cons]
    rw [ih]
    by_cases hv : lo ≤ v ∧ v ≤ hi
    · simp [hv, bump_length]
    · simp [hv]

theorem histUniform_sum (n : ℕ) (lo hi : ℚ) (xs : List ℚ) (hn : 1 ≤ n) :
    (histUniform n lo hi xs).sum =
      (xs.filter (fun v => decide (lo ≤ v) && decide (v ≤ hi))).length := by
  suffices h : ∀ (acc : List ℕ), acc.length = n → (xs.foldl
      (fun acc v =>
        if lo ≤ v ∧ v ≤ hi then
          bump acc (min (⌊(v - lo) * n / (hi - lo)⌋.toNat) (n - 1))
        else acc) acc).sum = acc.sum +
        (xs.filter (fun v => decide (lo ≤ v) && decide (v ≤ hi))).length by
    simpa [histUniform] using h (List.replicate n 0) (by simp)
  intro acc hacc
  induction xs generalizing acc with
  | nil => simp
  | cons v t ih =>
    simp only [List.foldl_cons, List.filter_cons]
    by_cases hv : lo ≤ v ∧ v ≤ hi
    · have hj : min (⌊(v - lo) * n / (hi - lo)⌋.toNat) (n - 1) < acc.length := by
        rw [hacc]; omega
      rw [if_pos hv, ih _ (by rw [bump_length]; exact hacc), bump_sum _ _ hj]
      have : (decide (lo ≤ v) && decide (v ≤ hi)) = true := by
        simp [hv.1, hv.2]
      rw [this]
      simp; omega
    · have hd : (decide (lo ≤ v) && decide (v ≤ hi)) = false := by
        rcases not_and_or.mp hv with h | h <;> simp [h]
      rw [if_neg hv, ih _ hacc, hd]
      simp

/-- All values within `[lo, hi]` means the histogram conserves the count. -/
theorem histUniform_sum_all (n : ℕ) (lo hi : ℚ) (xs : List ℚ) (hn : 1 ≤ n)
    (hall : ∀ v ∈ xs, lo ≤ v ∧ v ≤ hi) :
    (histUniform n lo hi xs).sum = xs.length := by
  rw [histUniform_sum n lo hi xs hn]
  congr 1
  apply List.filter_eq_self.mpr
  intro v hv
  simp [(hall v hv).1, (hall v hv).2]

/-! ### Lemmas about uniform edge arrays -/

theorem uniformEdges_length (w : ℚ) (m : ℕ) : (uniformEdges w m).length = m + 1 := by
  unfold uniformEdges
  rw [List.length_map, List.length_range]

theorem uniformEdges_getD (w : ℚ) (m k : ℕ) (hk : k ≤ m) :
    (uniformEdges w m).getD k 0 = (k : ℚ) * w := by
  unfold uniformEdges
  exact getD_map_range (m + 1) k _ 0 (by omega)

theorem linspace_zero_eq_uniform (M : ℚ) (n : ℕ) :
    linspaceQ 0 M n = uniformEdges (M / n) n := by
  unfold linspaceQ uniformEdges
  apply List.map_congr_left
  intro j _
  rw [mul_comm (j : ℚ) (M / n)]
  rw [mul_div_assoc]
  ring

theorem arange_ext_eq_uniform (xm w : ℚ) (hw : 0 < w) (hxm : 0 < xm) :
    arangeQ 0 (xm + w) w = uniformEdges w (⌈xm / w⌉.toNat) := by
  unfold arangeQ uniformEdges
  have hw' : w ≠ 0 := ne_of_gt hw
  have hdiv : (xm + w - 0) / w = xm / w + 1 := by field_simp
  have hceil : ⌈(xm + w - 0) / w⌉ = ⌈xm / w⌉ + 1 := by
    rw [hdiv, Int.ceil_add_one]
  have hpos : 0 < ⌈xm / w⌉ := by
    apply Int.ceil_pos.mpr
    positivity
  have hcount : ⌈(xm + w - 0) / w⌉.toNat = ⌈xm / w⌉.toNat + 1 := by
    rw [hceil]; omega
  rw [hcount]
  apply List.map_congr_left
  intro j _
  ring

theorem ceil_ge_succ_of_lt (xm w : ℚ) (m : ℕ) (hw : 0 < w) (hlt : (m : ℚ) * w < xm) :
    (m : ℤ) + 1 ≤ ⌈xm / w⌉ := by
  have : (m : ℚ) < xm / w := by
    rw [lt_div_iff₀ hw]; exact hlt
  have := Int.lt_ceil.mpr (by exact_mod_cast this : ((m : ℤ) : ℚ) < xm / w)
  omega

theorem le_ceil_toNat_mul (xm w : ℚ) (hw : 0 < w) (hxm : 0 < xm) :
    xm ≤ (⌈xm / w⌉.toNat : ℚ) * w := by
  have hpos : 0 < ⌈xm / w⌉ := Int.ceil_pos.mpr (by positivity)
  have hle : xm / w ≤ (⌈xm / w⌉ : ℚ) := Int.le_ceil _
  have hcast : ((⌈xm / w⌉.toNat : ℕ) : ℚ) = ((⌈xm / w⌉ : ℤ) : ℚ) := by
    exact_mod_cast congrArg (fun z : ℤ => (z : ℚ)) (Int.toNat_of_nonneg (le_of_lt hpos))
  rw [hcast]
  calc xm = xm / w * w := by field_simp
  _ ≤ (⌈xm / w⌉ : ℚ) * w := by
    exact mul_le_mul_of_nonneg_right hle (le_of_lt hw)

/-! ### Lemmas about processed batches -/

theorem procBatch_nonneg (sz : Bool) (x : List ℚ) :
    ∀ v ∈ procBatch sz x, 0 ≤ v := by
  intro v hv
  unfold procBatch at hv
  have hv' : v ∈ (if listMin x < 0 then x.map (fun v => |v|) else x) := by
    cases sz with
    | false => exact hv
    | true => exact List.mem_of_mem_filter hv
  by_cases hmin : listMin x < 0
  · rw [if_pos hmin] at hv'
    rcases List.mem_map.mp hv' with ⟨u, _, rfl⟩
    exact abs_nonneg u
  · rw [if_neg hmin] at hv'
    exact le_trans (not_lt.mp hmin) (listMin_le_mem x v hv')

theorem procBatch_le_max (sz : Bool) (x : List ℚ) :
    ∀ v ∈ procBatch sz x, v ≤ listMax (procBatch sz x) :=
  fun v hv => mem_le_listMax _ v hv

theorem procBatch_max_nonneg (sz : Bool) (x : List ℚ)
    (hne : procBatch sz x ≠ []) : 0 ≤ listMax (procBatch sz x) := by
  rcases List.exists_mem_of_ne_nil _ hne with ⟨v, hv⟩
  exact le_trans (procBatch_nonneg sz x v hv) (procBatch_le_max sz x v hv)

/-! ### Torch-mode collection: structure and conservation -/

theorem collect_eq_torch (s : CalibState) (x : List ℚ) (h : s.torch_hist = true) :
    collect s x = collectTorch s (procBatch s.skip_zeros x) := by
  unfold collect
  rw [h]
  rw [if_neg (by simp)]

theorem collect_eq_np (s : CalibState) (x : List ℚ) (h : s.torch_hist = false) :
    collect s x = collectNp s (procBatch s.skip_zeros x) := by
  unfold collect
  rw [h, if_pos rfl]

theorem collect_torch_first (nb : ℕ) (sz : Bool) (x : List ℚ)
    (hnb : 1 ≤ nb) (hmax : 0 < listMax (procBatch sz x)) :
    collect ⟨nb, sz, true, none, none⟩ x =
      ⟨nb, sz, true, some (uniformEdges (listMax (procBatch sz x) / nb) nb),
        some (histUniform nb 0 (listMax (procBatch sz x)) (procBatch sz x))⟩ ∧
    (histUniform nb 0 (listMax (procBatch sz x)) (procBatch sz x)).length = nb ∧
    (histUniform nb 0 (listMax (procBatch sz x)) (procBatch sz x)).sum =
      (procBatch sz x).length ∧
    0 < listMax (procBatch sz x) / nb := by
  set pb := procBatch sz x with hpb
  have hnbQ : (0 : ℚ) < (nb : ℚ) := by exact_mod_cast hnb
  refine ⟨?_, histUniform_length _ _ _ _, ?_, ?_⟩
  · rw [collect_eq_torch _ x rfl]
    show (⟨nb, sz, true, some (linspaceQ 0 (listMax pb) nb),
        some (histUniform nb 0 (listMax pb) pb)⟩ : CalibState) = _
    rw [linspace_zero_eq_uniform]
  · exact histUniform_sum_all nb 0 (listMax pb) pb hnb
      (fun v hv => ⟨procBatch_nonneg sz x v hv, procBatch_le_max sz x v hv⟩)
  · positivity

theorem collectTorch_eval_ext (nb : ℕ) (sz : Bool) (e : List ℚ) (h : List ℕ)
    (x : List ℚ) (hc : e.getD (e.length - 1) 0 < listMax x) :
    collectTorch ⟨nb, sz, true, some e, some h⟩ x =
      ⟨(⌈listMax x / (e.getD 1 0 - e.getD 0 0)⌉).toNat, sz, true,
        some (arangeQ 0 (listMax x + (e.getD 1 0 - e.getD 0 0))
          (e.getD 1 0 - e.getD 0 0)),
        some (addOldCounts
          (histUniform (⌈listMax x / (e.getD 1 0 - e.getD 0 0)⌉).toNat 0
            ((arangeQ 0 (listMax x + (e.getD 1 0 - e.getD 0 0))
                (e.getD 1 0 - e.getD 0 0)).getD
              ((arangeQ 0 (listMax x + (e.getD 1 0 - e.getD 0 0))
                  (e.getD 1 0 - e.getD 0 0)).length - 1) 0) x) h)⟩ := by
  simp only [collectTorch, Option.getD_some, if_pos hc]

theorem collectTorch_eval_noext (nb : ℕ) (sz : Bool) (e : List ℚ) (h : List ℕ)
    (x : List ℚ) (hc : ¬ e.getD (e.length - 1) 0 < listMax x) :
    collectTorch ⟨nb, sz, true, some e, some h⟩ x =
      ⟨nb, sz, true, some e,
        some (addOldCounts (histUniform nb 0 (e.getD (e.length - 1) 0) x) h)⟩ := by
  simp only [collectTorch, Option.getD_some, if_neg hc]

theorem collect_torch_step (sz : Bool) (w : ℚ) (m : ℕ) (h : List ℕ) (x : List ℚ)
    (hw : 0 < w) (hm : 1 ≤ m) (hh : h.length = m)
    (_hx : procBatch sz x ≠ []) :
    ∃ w' m' h', 0 < w' ∧ 1 ≤ m' ∧ h'.length = m' ∧
      collect ⟨m, sz, true, some (uniformEdges w m), some h⟩ x =
        ⟨m', sz, true, some (uniformEdges w' m'), some h'⟩ ∧
      h'.sum = h.sum + (procBatch sz x).length := by
  set pb := procBatch sz x with hpb
  have hvals : ∀ v ∈ pb, 0 ≤ v ∧ v ≤ listMax pb :=
    fun v hv => ⟨procBatch_nonneg sz x v hv, procBatch_le_max sz x v hv⟩
  have hstep : collect ⟨m, sz, true, some (uniformEdges w m), some h⟩ x =
      collectTorch ⟨m, sz, true, some (uniformEdges w m), some h⟩ pb :=
    collect_eq_torch _ x rfl
  have hlen : (uniformEdges w m).length - 1 = m := by
    rw [uniformEdges_length]
    omega
  have hlast : (uniformEdges w m).getD ((uniformEdges w m).length - 1) 0
      = (m : ℚ) * w := by
    rw [hlen]
    exact uniformEdges_getD w m m (le_refl m)
  have hwidth : (uniformEdges w m).getD 1 0 - (uniformEdges w m).getD 0 0 = w := by
    rw [uniformEdges_getD w m 1 hm, uniformEdges_getD w m 0 (by omega)]
    push_cast
    ring
  by_cases hext : (m : ℚ) * w < listMax pb
  · -- range extension: num_bins becomes ⌈x_max / w⌉, edges arange 0 (x_max + w) w
    have hxm0 : 0 < listMax pb := lt_of_le_of_lt (by positivity) hext
    have hm'geq : (m : ℤ) + 1 ≤ ⌈listMax pb / w⌉ :=
      ceil_ge_succ_of_lt (listMax pb) w m hw hext
    have hm'ge : m + 1 ≤ (⌈listMax pb / w⌉).toNat := by omega
    have harange : arangeQ 0 (listMax pb + w) w =
        uniformEdges w (⌈listMax pb / w⌉).toNat :=
      arange_ext_eq_uniform (listMax pb) w hw hxm0
    have hlast' : (uniformEdges w (⌈listMax pb / w⌉).toNat).getD
        ((uniformEdges w (⌈listMax pb / w⌉).toNat).length - 1) 0
        = ((⌈listMax pb / w⌉).toNat : ℚ) * w := by
      rw [uniformEdges_length]
      exact uniformEdges_getD w _ _ (by omega)
    have hxmle : listMax pb ≤ ((⌈listMax pb / w⌉).toNat : ℚ) * w :=
      le_ceil_toNat_mul (listMax pb) w hw hxm0
    refine ⟨w, (⌈listMax pb / w⌉).toNat,
      addOldCounts (histUniform (⌈listMax pb / w⌉).toNat 0
        (((⌈listMax pb / w⌉).toNat : ℚ) * w) pb) h,
      hw, by omega, ?_, ?_, ?_⟩
    · rw [addOldCounts_length, histUniform_length]
    · rw [hstep, collectTorch_eval_ext m sz _ h pb (by rw [hlast]; exact hext),
        hwidth, harange, hlast']
    · rw [addOldCounts_sum _ _ (by rw [histUniform_length]; omega),
        histUniform_sum_all _ 0 _ pb (by omega)
          (fun v hv => ⟨(hvals v hv).1, le_trans (hvals v hv).2 hxmle⟩)]
      omega
  · -- no extension: bins and edges keep their shape
    refine ⟨w, m, addOldCounts (histUniform m 0 ((m : ℚ) * w) pb) h,
      hw, hm, ?_, ?_, ?_⟩
    · rw [addOldCounts_length, histUniform_length]
    · rw [hstep, collectTorch_eval_noext m sz _ h pb (by rw [hlast]; exact hext),
        hlast]
    · rw [addOldCounts_sum _ _ (by rw [histUniform_length]; omega),
        histUniform_sum_all m 0 ((m : ℚ) * w) pb hm
          (fun v hv => ⟨(hvals v hv).1, le_trans (hvals v hv).2 (not_lt.mp hext)⟩)]
      omega

theorem collect_torch_seq (sz : Bool) (w : ℚ) (m : ℕ) (h : List ℕ)
    (bs : List (List ℚ)) (hw : 0 < w) (hm : 1 ≤ m) (hh : h.length = m)
    (hbs : ∀ b ∈ bs, procBatch sz b ≠ []) :
    ∃ w' m' h', 0 < w' ∧ 1 ≤ m' ∧ h'.length = m' ∧
      collectSeq ⟨m, sz, true, some (uniformEdges w m), some h⟩ bs =
        ⟨m', sz, true, some (uniformEdges w' m'), some h'⟩ ∧
      h'.sum = h.sum + (bs.map (fun b => (procBatch sz b).length)).sum := by
  induction bs generalizing w m h with
  | nil => exact ⟨w, m, h, hw, hm, hh, rfl, by simp⟩
  | cons b bs ih =>
    obtain ⟨w1, m1, h1, hw1, hm1, hh1, hceq, hsum⟩ :=
      collect_torch_step sz w m h b hw hm hh (hbs b (by simp))
    obtain ⟨w', m', h', hw', hm', hh', hcseq, hsum'⟩ :=
      ih w1 m1 h1 hw1 hm1 hh1 (fun b hb => hbs b (List.mem_cons_of_mem _ hb))
    refine ⟨w', m', h', hw', hm', hh', ?_, ?_⟩
    · show List.foldl collect _ (b :: bs) = _
      rw [List.foldl_cons, hceq]
      exact hcseq
    · rw [hsum', hsum, List.map_cons, List.sum_cons]
      omega

/-- C1 (amended to the torch collection mode): for every batch sequence
(each batch nonempty after preprocessing, the first with positive maximum
so the histogram is non-degenerate), the sum of the final histogram
counts equals the total number of values ingested across all batches
minus the zeros removed by `skip_zeros` — i.e. the total length of the
preprocessed batches — regardless of how many range extensions occurred.
(The numpy mode violates this: see the counterexample.) -/
theorem c1_histogram_conservation_torch (nb : ℕ) (sz : Bool)
    (b0 : List ℚ) (bs : List (List ℚ)) (hnb : 1 ≤ nb)
    (h0 : 0 < listMax (procBatch sz b0))
    (hbs : ∀ b ∈ bs, procBatch sz b ≠ []) :
    histSum (collectSeq (initState nb sz true) (b0 :: bs)) =
      (procBatch sz b0).length +
        (bs.map (fun b => (procBatch sz b).length)).sum := by
  obtain ⟨hceq, hlen, hsum, hwpos⟩ := collect_torch_first nb sz b0 hnb h0
  obtain ⟨w', m', h', _, _, _, hcseq, hsum'⟩ :=
    collect_torch_seq sz (listMax (procBatch sz b0) / nb) nb
      (histUniform nb 0 (listMax (procBatch sz b0)) (procBatch sz b0)) bs
      hwpos hnb hlen hbs
  have hinit : initState nb sz true = ⟨nb, sz, true, none, none⟩ := rfl
  have hfold : collectSeq (initState nb sz true) (b0 :: bs) =
      ⟨m', sz, true, some (uniformEdges w' m'), some h'⟩ := by
    show List.foldl collect _ (b0 :: bs) = _
    rw [List.foldl_cons, hinit, hceq]
    exact hcseq
  rw [hfold]
  show h'.sum = _
  rw [hsum', hsum]

/-- C1 witness: a concrete torch-mode run with one range extension. -/
theorem c1_witness :
    (1 ≤ 1 ∧ 0 < listMax (procBatch false [1]) ∧
      ∀ b ∈ [[(2 : ℚ)]], procBatch false b ≠ []) ∧
    histSum (collectSeq (initState 1 false true) [[1], [(2 : ℚ)]]) =
      (procBatch false [1]).length +
        ([[(2 : ℚ)]].map (fun b => (procBatch false b).length)).sum :=
  ⟨⟨le_refl 1, by norm_num [procBatch, listMax, listMin],
      by norm_num [procBatch, listMin]⟩,
    c1_histogram_conservation_torch 1 false [1] [[2]] (le_refl 1)
      (by norm_num [procBatch, listMax, listMin])
      (by norm_num [procBatch, listMin])⟩

/-- C1 counterexample: in the numpy collection mode the first call's bin
range starts at the first batch's minimum (here `1`), so the later value
`1/2` is silently dropped: 3 values are ingested (no zeros skipped) but
the final counts sum to 2. -/
theorem c1_counterexample :
    histSum (collectSeq (initState 2 false false) [[1, 2], [1/2]]) = 2 ∧
    ([[1, 2], [(1 : ℚ)/2]].map (fun b => (procBatch false b).length)).sum = 3 ∧
    (2 : ℕ) ≠ 3 := by
  refine ⟨?_, by norm_num [procBatch, listMin, min_def], by norm_num⟩
  norm_num [histSum, collectSeq, collect, collectNp, procBatch, listMin, listMax,
    npHistogramAuto, histUniform, histByEdges, binOfEdges, linspaceQ, bump,
    addOldCounts, arangeQ, initState, min_def, max_def, List.foldl,
    List.cons_ne_nil, List.getD, List.range_succ]

/-! ### Numpy-mode collection: structural invariants -/

theorem getD_eq_get {α : Type} (l : List α) (i : ℕ) (d : α) (h : i < l.length) :
    l.getD i d = l.get ⟨i, h⟩ := by
  rw [List.getD_eq_getElem?_getD, List.getElem?_eq_getElem h]
  rfl

theorem sorted_le_last (e : List ℚ) (he : e.Pairwise (· < ·)) (a : ℚ) (ha : a ∈ e) :
    a ≤ e.getD (e.length - 1) 0 := by
  obtain ⟨i, hi⟩ := List.mem_iff_get.mp ha
  have hlen : 0 < e.length := List.length_pos.mpr (List.ne_nil_of_mem ha)
  have hlast : e.length - 1 < e.length := by omega
  rw [getD_eq_get e _ 0 hlast]
  rcases lt_or_eq_of_le (show i.1 ≤ e.length - 1 by omega) with hlt | heq
  · exact le_of_lt (by
      rw [← hi]
      exact List.pairwise_iff_get.mp he i ⟨e.length - 1, hlast⟩ hlt)
  · have hieq : i = ⟨e.length - 1, hlast⟩ := by
      apply Fin.ext
      exact heq
    rw [← hi, hieq]

theorem linspaceQ_pairwise (a b : ℚ) (n : ℕ) (hab : a < b) :
    (linspaceQ a b n).Pairwise (· < ·) := by
  rcases Nat.eq_zero_or_pos n with rfl | hn
  · simp [linspaceQ, List.range_succ]
  · unfold linspaceQ
    apply List.Pairwise.map _ _ (List.pairwise_lt_range (n + 1))
    intro j k hjk
    have hj : (j : ℚ) < (k : ℚ) := by exact_mod_cast hjk
    have hba : (0 : ℚ) < b - a := by linarith
    have hnQ : (0 : ℚ) < (n : ℚ) := by exact_mod_cast hn
    apply add_lt_add_left
    rw [div_lt_div_iff₀ hnQ hnQ]
    nlinarith [mul_pos (mul_pos hba (sub_pos.mpr hj)) hnQ]

theorem arangeQ_pairwise (start stop step : ℚ) (hstep : 0 < step) :
    (arangeQ start stop step).Pairwise (· < ·) := by
  unfold arangeQ
  apply List.Pairwise.map _ _ (List.pairwise_lt_range _)
  intro j k hjk
  have hj : (j : ℚ) < (k : ℚ) := by exact_mod_cast hjk
  nlinarith

theorem arangeQ_mem_ge (start stop step : ℚ) (hstep : 0 < step) (b : ℚ)
    (hb : b ∈ arangeQ start stop step) : start ≤ b := by
  unfold arangeQ at hb
  rcases List.mem_map.mp hb with ⟨k, _, rfl⟩
  have : (0 : ℚ) ≤ (k : ℚ) := by positivity
  nlinarith

theorem histByEdges_length (edges : List ℚ) (xs : List ℚ) :
    (histByEdges edges xs).length = edges.length - 1 := by
  suffices h : ∀ (acc : List ℕ), (xs.foldl
      (fun acc v =>
        match binOfEdges edges v with
        | none => acc
        | some j => bump acc j) acc).length = acc.length by
    simpa [histByEdges] using h (List.replicate (edges.length - 1) 0)
  intro acc
  induction xs generalizing acc with
  | nil => rfl
  | cons v t ih =>
    simp only [List.foldl_cons]
    rw [ih]
    cases binOfEdges edges v with
    | none => rfl
    | some j => simp [bump_length]

theorem collectNp_eval_first (nb : ℕ) (sz : Bool) (x : List ℚ) :
    collectNp ⟨nb, sz, false, none, none⟩ x =
      ⟨nb, sz, false, some (npHistogramAuto nb x).2, some (npHistogramAuto nb x).1⟩ := by
  simp only [collectNp]

theorem collectNp_eval_ext (nb : ℕ) (sz : Bool) (e : List ℚ) (h : List ℕ)
    (x : List ℚ) (hc : e.getD (e.length - 1) 0 < listMax x) :
    collectNp ⟨nb, sz, false, some e, some h⟩ x =
      ⟨nb, sz, false,
        some (e ++ arangeQ (e.getD (e.length - 1) 0 + (e.getD 1 0 - e.getD 0 0))
          (listMax x + (e.getD 1 0 - e.getD 0 0)) (e.getD 1 0 - e.getD 0 0)),
        some (addOldCounts
          (histByEdges (e ++ arangeQ (e.getD (e.length - 1) 0 + (e.getD 1 0 - e.getD 0 0))
            (listMax x + (e.getD 1 0 - e.getD 0 0)) (e.getD 1 0 - e.getD 0 0)) x) h)⟩ := by
  simp only [collectNp, Option.getD_some, if_pos hc]

theorem collectNp_eval_noext (nb : ℕ) (sz : Bool) (e : List ℚ) (h : List ℕ)
    (x : List ℚ) (hc : ¬ e.getD (e.length - 1) 0 < listMax x) :
    collectNp ⟨nb, sz, false, some e, some h⟩ x =
      ⟨nb, sz, false, some e, some (addOldCounts (histByEdges e x) h)⟩ := by
  simp only [collectNp, Option.getD_some, if_neg hc]

theorem collect_np_step (nb : ℕ) (sz : Bool) (e : List ℚ) (h : List ℕ) (x : List ℚ)
    (he : e.Pairwise (· < ·)) (hlen2 : 2 ≤ e.length) (hh : h.length + 1 = e.length) :
    ∃ e' h', collect ⟨nb, sz, false, some e, some h⟩ x =
        ⟨nb, sz, false, some e', some h'⟩ ∧
      e'.Pairwise (· < ·) ∧ 2 ≤ e'.length ∧ h'.length + 1 = e'.length := by
  have hstep : collect ⟨nb, sz, false, some e, some h⟩ x =
      collectNp ⟨nb, sz, false, some e, some h⟩ (procBatch sz x) :=
    collect_eq_np _ x rfl
  set pb := procBatch sz x with hpb
  have hw : 0 < e.getD 1 0 - e.getD 0 0 := by
    have h0 : (0 : ℕ) < e.length := by omega
    have h1 : (1 : ℕ) < e.length := by omega
    rw [getD_eq_get e 0 0 h0, getD_eq_get e 1 0 h1]
    have := List.pairwise_iff_get.mp he ⟨0, h0⟩ ⟨1, h1⟩ (by simp)
    linarith
  by_cases hc : e.getD (e.length - 1) 0 < listMax pb
  · set w := e.getD 1 0 - e.getD 0 0 with hwdef
    set tail := arangeQ (e.getD (e.length - 1) 0 + w) (listMax pb + w) w with htail
    refine ⟨e ++ tail, addOldCounts (histByEdges (e ++ tail) pb) h, ?_, ?_, ?_, ?_⟩
    · rw [hstep, collectNp_eval_ext nb sz e h pb hc]
    · rw [List.pairwise_append]
      refine ⟨he, arangeQ_pairwise _ _ _ hw, ?_⟩
      intro a ha b hb
      have hble : e.getD (e.length - 1) 0 + w ≤ b := arangeQ_mem_ge _ _ _ hw b hb
      have hale : a ≤ e.getD (e.length - 1) 0 := sorted_le_last e he a ha
      linarith
    · rw [List.length_append]; omega
    · rw [addOldCounts_length, histByEdges_length, List.length_append]
      omega
  · refine ⟨e, addOldCounts (histByEdges e pb) h, ?_, he, hlen2, ?_⟩
    · rw [hstep, collectNp_eval_noext nb sz e h pb hc]
    · rw [addOldCounts_length, histByEdges_length]
      omega

theorem npHistogramAuto_spec (nb : ℕ) (x : List ℚ) (hnb : 1 ≤ nb) :
    (npHistogramAuto nb x).2.Pairwise (· < ·) ∧
    (npHistogramAuto nb x).2.length = nb + 1 ∧
    (npHistogramAuto nb x).1.length = nb := by
  have hlenl : ∀ a b : ℚ, (linspaceQ a b nb).length = nb + 1 := by
    intro a b
    unfold linspaceQ
    simp
  unfold npHistogramAuto
  by_cases hx : x = []
  · rw [if_pos hx]
    exact ⟨linspaceQ_pairwise 0 1 nb (by norm_num), hlenl 0 1, by simp⟩
  · rw [if_neg hx]
    by_cases heq : listMin x = listMax x
    · rw [if_pos heq]
      refine ⟨linspaceQ_pairwise _ _ nb (by linarith), hlenl _ _, histUniform_length _ _ _ _⟩
    · rw [if_neg heq]
      have hle : listMin x ≤ listMax x := by
        rcases List.exists_mem_of_ne_nil x hx with ⟨v, hv⟩
        exact le_trans (listMin_le_mem x v hv) (mem_le_listMax x v hv)
      refine ⟨linspaceQ_pairwise _ _ nb (lt_of_le_of_ne hle heq), hlenl _ _,
        histUniform_length _ _ _ _⟩

theorem collect_np_seq (nb : ℕ) (sz : Bool) (e : List ℚ) (h : List ℕ)
    (bs : List (List ℚ))
    (he : e.Pairwise (· < ·)) (hlen2 : 2 ≤ e.length) (hh : h.length + 1 = e.length) :
    ∃ e' h', collectSeq ⟨nb, sz, false, some e, some h⟩ bs =
        ⟨nb, sz, false, some e', some h'⟩ ∧
      e'.Pairwise (· < ·) ∧ 2 ≤ e'.length ∧ h'.length + 1 = e'.length := by
  induction bs generalizing e h with
  | nil => exact ⟨e, h, rfl, he, hlen2, hh⟩
  | cons b bs ih =>
    obtain ⟨e1, h1, hceq, he1, hlen1, hh1⟩ := collect_np_step nb sz e h b he hlen2 hh
    obtain ⟨e', h', hcseq, he', hlen', hh'⟩ := ih e1 h1 he1 hlen1 hh1
    refine ⟨e', h', ?_, he', hlen', hh'⟩
    show List.foldl collect _ (b :: bs) = _
    rw [List.foldl_cons, hceq]
    exact hcseq

theorem uniformEdges_pairwise (w : ℚ) (m : ℕ) (hw : 0 < w) :
    (uniformEdges w m).Pairwise (· < ·) := by
  unfold uniformEdges
  apply List.Pairwise.map _ _ (List.pairwise_lt_range _)
  intro j k hjk
  have hj : (j : ℚ) < (k : ℚ) := by exact_mod_cast hjk
  nlinarith

/-- C3 (amended): after every `collect` call, in both collection modes,
`len(counts) = len(bin_edges) - 1` holds and the bin edges are
non-decreasing (in fact strictly increasing); the first bin edge equals
`0` in the torch mode. In the numpy mode the first call's lower edge is
the automatic `np.histogram` range, which need not be `0`
(counterexample: a first batch `[1, 2]` gives first edge `1`). -/
theorem c3_structural_invariant (nb : ℕ) (sz th : Bool)
    (b0 : List ℚ) (bs : List (List ℚ)) (hnb : 1 ≤ nb)
    (htorch : th = true → 0 < listMax (procBatch sz b0))
    (hbs : ∀ b ∈ bs, procBatch sz b ≠ []) :
    ∃ h e, (collectSeq (initState nb sz th) (b0 :: bs)).calib_hist = some h ∧
      (collectSeq (initState nb sz th) (b0 :: bs)).calib_bin_edges = some e ∧
      h.length + 1 = e.length ∧ e.Pairwise (· ≤ ·) ∧
      (th = true → e.getD 0 0 = 0) := by
  cases th with
  | true =>
    obtain ⟨hceq, hlen, _, hwpos⟩ := collect_torch_first nb sz b0 hnb (htorch rfl)
    obtain ⟨w', m', h', hw', hm', hh', hcseq, _⟩ :=
      collect_torch_seq sz (listMax (procBatch sz b0) / nb) nb
        (histUniform nb 0 (listMax (procBatch sz b0)) (procBatch sz b0)) bs
        hwpos hnb hlen hbs
    have hfold : collectSeq (initState nb sz true) (b0 :: bs) =
        ⟨m', sz, true, some (uniformEdges w' m'), some h'⟩ := by
      show List.foldl collect _ (b0 :: bs) = _
      rw [List.foldl_cons, show initState nb sz true = ⟨nb, sz, true, none, none⟩ from rfl,
        hceq]
      exact hcseq
    refine ⟨h', uniformEdges w' m', by rw [hfold], by rw [hfold], ?_, ?_, ?_⟩
    · rw [uniformEdges_length, hh']
    · exact (uniformEdges_pairwise w' m' hw').imp le_of_lt
    · intro _
      rw [uniformEdges_getD w' m' 0 (by omega)]
      ring
  | false =>
    obtain ⟨hpw, hel, hhl⟩ := npHistogramAuto_spec nb (procBatch sz b0) hnb
    have hfirst : collect (initState nb sz false) b0 =
        ⟨nb, sz, false, some (npHistogramAuto nb (procBatch sz b0)).2,
          some (npHistogramAuto nb (procBatch sz b0)).1⟩ := by
      rw [show initState nb sz false = ⟨nb, sz, false, none, none⟩ from rfl,
        collect_eq_np _ b0 rfl, collectNp_eval_first]
    obtain ⟨e', h', hcseq, he', hlen', hh'⟩ :=
      collect_np_seq nb sz (npHistogramAuto nb (procBatch sz b0)).2
        (npHistogramAuto nb (procBatch sz b0)).1 bs hpw (by omega) (by omega)
    have hfold : collectSeq (initState nb sz false) (b0 :: bs) =
        ⟨nb, sz, false, some e', some h'⟩ := by
      show List.foldl collect _ (b0 :: bs) = _
      rw [List.foldl_cons, hfirst]
      exact hcseq
    exact ⟨h', e', by rw [hfold], by rw [hfold], hh', he'.imp le_of_lt,
      fun hcontra => by cases hcontra⟩

/-- C3 witness: a torch-mode run with an extension and a numpy-mode run. -/
theorem c3_witness :
    (1 ≤ 2 ∧ (true = true → 0 < listMax (procBatch false [1])) ∧
      ∀ b ∈ [[(2 : ℚ)]], procBatch false b ≠ []) ∧
    (∃ h e, (collectSeq (initState 2 false true) [[1], [(2 : ℚ)]]).calib_hist = some h ∧
      (collectSeq (initState 2 false true) [[1], [(2 : ℚ)]]).calib_bin_edges = some e ∧
      h.length + 1 = e.length ∧ e.Pairwise (· ≤ ·) ∧
      (true = true → e.getD 0 0 = 0)) :=
  ⟨⟨by omega, fun _ => by norm_num [procBatch, listMax, listMin],
      by norm_num [procBatch, listMin]⟩,
    c3_structural_invariant 2 false true [1] [[2]] (by omega)
      (fun _ => by norm_num [procBatch, listMax, listMin])
      (by norm_num [procBatch, listMin])⟩

/-- C3 counterexample: in the numpy mode the first batch `[1, 2]` yields
bin edges `[1, 3/2, 2]`, whose first edge is `1`, not `0`. -/
theorem c3_counterexample :
    (collectSeq (initState 2 false false) [[1, 2]]).calib_bin_edges =
      some [1, 3/2, 2] ∧ (1 : ℚ) ≠ 0 := by
  constructor
  · norm_num [collectSeq, collect, collectNp, procBatch, listMin, listMax,
      npHistogramAuto, histUniform, linspaceQ, bump, initState, min_def, max_def,
      List.foldl, List.cons_ne_nil, List.range_succ]
  · norm_num

/-! ### Reset behaviour -/

theorem collect_fields (s : CalibState) (x : List ℚ) :
    (collect s x).skip_zeros = s.skip_zeros ∧
    (collect s x).torch_hist = s.torch_hist := by
  obtain ⟨nb, sz, th, e?, h?⟩ := s
  cases th with
  | false =>
    rw [collect_eq_np _ _ rfl]
    cases e? <;> cases h? <;> simp [collectNp]
  | true =>
    rw [collect_eq_torch _ _ rfl]
    cases e? <;> cases h? <;> simp [collectTorch]

theorem collect_np_num_bins (s : CalibState) (x : List ℚ)
    (h : s.torch_hist = false) : (collect s x).num_bins = s.num_bins := by
  obtain ⟨nb, sz, th, e?, h?⟩ := s
  cases th with
  | false =>
    rw [collect_eq_np _ _ rfl]
    cases e? <;> cases h? <;> simp [collectNp]
  | true => cases h

theorem collectSeq_fields (s : CalibState) (bs : List (List ℚ)) :
    (collectSeq s bs).skip_zeros = s.skip_zeros ∧
    (collectSeq s bs).torch_hist = s.torch_hist := by
  induction bs generalizing s with
  | nil => exact ⟨rfl, rfl⟩
  | cons b bs ih =>
    have h1 := collect_fields s b
    have h2 := ih (collect s b)
    exact ⟨by rw [← h1.1, ← h2.1]; rfl, by rw [← h1.2, ← h2.2]; rfl⟩

theorem collectSeq_np_num_bins (s : CalibState) (bs : List (List ℚ))
    (h : s.torch_hist = false) : (collectSeq s bs).num_bins = s.num_bins := by
  induction bs generalizing s with
  | nil => rfl
  | cons b bs ih =>
    have h1 : (collect s b).torch_hist = false := by
      rw [(collect_fields s b).2]; exact h
    have := ih (collect s b) h1
    rw [show collectSeq s (b :: bs) = collectSeq (collect s b) bs from rfl, this,
      collect_np_num_bins s b h]

/-- C4 (amended): `reset()` followed by any batch sequence matches a fresh
collector fed the same sequence whenever the stored bin count still
equals its construction value — always true in the numpy mode (which
never rewrites `_num_bins`), but violated in the torch mode once a range
extension has rewritten `_num_bins`, because `reset()` clears only the
histogram and edges. -/
theorem c4_reset_equivalence (nb : ℕ) (sz th : Bool) (pre bs : List (List ℚ))
    (h : th = false ∨ (collectSeq (initState nb sz th) pre).num_bins = nb) :
    collectSeq (resetState (collectSeq (initState nb sz th) pre)) bs =
      collectSeq (initState nb sz th) bs := by
  have hfields := collectSeq_fields (initState nb sz th) pre
  have hnb : (collectSeq (initState nb sz th) pre).num_bins = nb := by
    rcases h with h | h
    · subst h
      exact collectSeq_np_num_bins _ _ rfl
    · exact h
  have hreset : resetState (collectSeq (initState nb sz th) pre) = initState nb sz th := by
    show (⟨(collectSeq (initState nb sz th) pre).num_bins,
        (collectSeq (initState nb sz th) pre).skip_zeros,
        (collectSeq (initState nb sz th) pre).torch_hist, none, none⟩ : CalibState) =
      initState nb sz th
    rw [hnb, hfields.1, hfields.2]
    rfl
  rw [hreset]

/-- C4 witness: numpy mode, where the equivalence holds unconditionally. -/
theorem c4_witness :
    ((false : Bool) = false ∨
      (collectSeq (initState 2 false false) [[1]]).num_bins = 2) ∧
    collectSeq (resetState (collectSeq (initState 2 false false) [[1]])) [[1], [3]] =
      collectSeq (initState 2 false false) [[1], [3]] :=
  ⟨Or.inl rfl, c4_reset_equivalence 2 false false [[1]] [[1], [3]] (Or.inl rfl)⟩

/-- C4 counterexample: torch mode with `num_bins = 2`. Collecting `[1]`
then `[2]` triggers a range extension that rewrites `_num_bins` to 4;
after `reset()`, collecting `[1]` produces a 4-bin histogram `[0,0,0,1]`,
while a fresh collector with the same constructor arguments produces the
2-bin histogram `[0,1]`. -/
theorem c4_counterexample :
    (collectSeq (resetState (collectSeq (initState 2 false true) [[1], [2]]))
        [[1]]).calib_hist = some [0, 0, 0, 1] ∧
    (collectSeq (initState 2 false true) [[1]]).calib_hist = some [0, 1] ∧
    some [0, 0, 0, 1] ≠ some [(0 : ℕ), 1] := by
  refine ⟨?_, ?_, by simp⟩
  · norm_num [collectSeq, collect, collectNp, collectTorch, resetState, procBatch,
      listMin, listMax, histUniform, linspaceQ, bump, addOldCounts, arangeQ,
      initState, min_def, max_def, List.foldl, List.cons_ne_nil, List.getD,
      List.range_succ]
  · norm_num [collectSeq, collect, collectTorch, procBatch, listMin, listMax,
      histUniform, linspaceQ, bump, initState, min_def, max_def, List.foldl,
      List.range_succ]

/-! ### Minima and argmin (`np.argmin` takes the first minimal index) -/

theorem listMin_mem : ∀ (l : List ℚ), l ≠ [] → listMin l ∈ l
  | [], h => absurd rfl h
  | [a], _ => by simp [listMin]
  | a :: b :: t, _ => by
    rw [show listMin (a :: b :: t) = min a (listMin (b :: t)) from rfl]
    rcases min_cases a (listMin (b :: t)) with ⟨h, _⟩ | ⟨h, _⟩
    · rw [h]; exact List.mem_cons_self a _
    · rw [h]; exact List.mem_cons_of_mem a (listMin_mem (b :: t) (by simp))

theorem argminIdx_lt_length : ∀ (l : List ℚ), l ≠ [] → argminIdx l < l.length
  | [], h => absurd rfl h
  | [a], _ => by simp [argminIdx]
  | a :: b :: t, _ => by
    rw [show argminIdx (a :: b :: t) =
      if a ≤ listMin (b :: t) then 0 else argminIdx (b :: t) + 1 from rfl]
    by_cases h : a ≤ listMin (b :: t)
    · rw [if_pos h]; simp
    · rw [if_neg h]
      have := argminIdx_lt_length (b :: t) (by simp)
      simpa using this

theorem argminIdx_getD : ∀ (l : List ℚ), l ≠ [] →
    l.getD (argminIdx l) 0 = listMin l
  | [], h => absurd rfl h
  | [a], _ => by simp [argminIdx, listMin]
  | a :: b :: t, _ => by
    rw [show argminIdx (a :: b :: t) =
      if a ≤ listMin (b :: t) then 0 else argminIdx (b :: t) + 1 from rfl,
      show listMin (a :: b :: t) = min a (listMin (b :: t)) from rfl]
    by_cases h : a ≤ listMin (b :: t)
    · rw [if_pos h]
      simp [min_eq_left h]
    · rw [if_neg h]
      have := argminIdx_getD (b :: t) (by simp)
      simp only [List.getD_cons_succ]
      rw [this, min_eq_right (le_of_not_le h)]

theorem argminIdx_first : ∀ (l : List ℚ) (j : ℕ), j < argminIdx l →
    listMin l < l.getD j 0
  | [], j, h => by simp [argminIdx] at h
  | [a], j, h => by simp [argminIdx] at h
  | a :: b :: t, j, h => by
    rw [show argminIdx (a :: b :: t) =
      if a ≤ listMin (b :: t) then 0 else argminIdx (b :: t) + 1 from rfl] at h
    by_cases hle : a ≤ listMin (b :: t)
    · rw [if_pos hle] at h
      omega
    · rw [if_neg hle] at h
      rw [show listMin (a :: b :: t) = min a (listMin (b :: t)) from rfl,
        min_eq_right (le_of_not_le hle)]
      cases j with
      | zero =>
        rw [List.getD_cons_zero]
        exact lt_of_not_le hle
      | succ j =>
        rw [List.getD_cons_succ]
        exact argminIdx_first (b :: t) j (by omega)

theorem argminIdx_le_of_attains (l : List ℚ) (j : ℕ) (hj : j < l.length)
    (hatt : l.getD j 0 = listMin l) : argminIdx l ≤ j := by
  by_contra hcon
  have := argminIdx_first l j (by omega)
  rw [hatt] at this
  exact lt_irrefl _ this

theorem listMin_le_getD (l : List ℚ) (j : ℕ) (hj : j < l.length) :
    listMin l ≤ l.getD j 0 := by
  apply listMin_le_mem
  rw [getD_eq_get l j 0 hj]
  exact List.get_mem l j hj

theorem listMin_reverse (l : List ℚ) : listMin l.reverse = listMin l := by
  rcases List.eq_nil_or_concat l with rfl | _
  · rfl
  · have hne : l ≠ [] := by
      rintro rfl
      simp_all
    have hne' : l.reverse ≠ [] := by simpa using hne
    apply le_antisymm
    · apply listMin_le_mem
      rw [List.mem_reverse]
      exact listMin_mem l hne
    · apply listMin_le_mem
      rw [← List.mem_reverse]
      exact listMin_mem l.reverse hne'

theorem getD_reverse (l : List ℚ) (k : ℕ) (hk : k < l.length) :
    l.reverse.getD k 0 = l.getD (l.length - 1 - k) 0 := by
  have hk' : k < l.reverse.length := by simpa using hk
  have hk'' : l.length - 1 - k < l.length := by omega
  rw [getD_eq_get _ k 0 hk', getD_eq_get _ _ 0 hk'']
  rw [List.get_reverse' l ⟨k, hk'⟩ (by simpa using hk'')]

/-- `len(divergences) - 1 - np.argmin(divergences[::-1])` attains the
minimum of `divergences`. -/
theorem lastArgmin_getD (l : List ℚ) (hne : l ≠ []) :
    l.getD (l.length - 1 - argminIdx l.reverse) 0 = listMin l := by
  have hne' : l.reverse ≠ [] := by simpa using hne
  have harg : argminIdx l.reverse < l.length := by
    have := argminIdx_lt_length l.reverse hne'
    simpa using this
  rw [← getD_reverse l _ harg, argminIdx_getD l.reverse hne', listMin_reverse]

/-- Any index attaining the minimum is at most
`len(divergences) - 1 - np.argmin(divergences[::-1])` : the reverse scan
selects the *last* argmin. -/
theorem lastArgmin_ge_of_attains (l : List ℚ) (j : ℕ) (hj : j < l.length)
    (hatt : l.getD j 0 = listMin l) :
    j ≤ l.length - 1 - argminIdx l.reverse := by
  have hrevlen : l.reverse.length = l.length := by simp
  have hrj : l.length - 1 - j < l.reverse.length := by omega
  have hattr : l.reverse.getD (l.length - 1 - j) 0 = listMin l.reverse := by
    rw [getD_reverse l _ (by omega), listMin_reverse]
    have : l.length - 1 - (l.length - 1 - j) = j := by omega
    rw [this, hatt]
  have := argminIdx_le_of_attains l.reverse _ hrj hattr
  omega

/-! ### `np.searchsorted`-style monotonicity for the percentile search -/

theorem findIdx_mono (l : List ℚ) (P Q : ℚ → Bool)
    (h : ∀ c, Q c = true → P c = true) : l.findIdx P ≤ l.findIdx Q := by
  induction l with
  | nil => simp
  | cons a t ih =>
    rw [List.findIdx_cons, List.findIdx_cons]
    cases hP : P a with
    | true => simp
    | false =>
      have hQ : Q a = false := by
        cases hQ : Q a with
        | true => rw [h a hQ] at hP; cases hP
        | false => rfl
      rw [hQ]
      simpa using ih

theorem pairwise_le_getD (l : List ℚ) (hl : l.Pairwise (· ≤ ·)) (i j : ℕ)
    (hij : i ≤ j) (hj : j < l.length) : l.getD i 0 ≤ l.getD j 0 := by
  rcases lt_or_eq_of_le hij with hlt | rfl
  · rw [getD_eq_get l i 0 (by omega), getD_eq_get l j 0 hj]
    exact List.pairwise_iff_get.mp hl ⟨i, by omega⟩ ⟨j, hj⟩ hlt
  · rfl

theorem cumsumFrom_length (acc : ℚ) : ∀ (l : List ℚ),
    (cumsumFrom acc l).length = l.length
  | [] => rfl
  | x :: t => by simpa [cumsumFrom] using cumsumFrom_length (acc + x) t

theorem cumsumQ_length (l : List ℚ) : (cumsumQ l).length = l.length :=
  cumsumFrom_length 0 l

/-! ### The percentile search (C7, part of C5/C9) -/

theorem computeAmaxPercentile_eval (h e : List ℚ) (p : ℚ)
    (hp1 : 0 ≤ p) (hp2 : p ≤ 100) :
    computeAmaxPercentile (some h) (some e) p =
      .ok (some (e.getD (percentileIdx h p) 0), some h, some e) := by
  unfold computeAmaxPercentile
  rw [if_neg (by simp only [not_or, not_lt]; exact ⟨hp1, hp2⟩)]
  rfl

theorem percentileIdx_mono (h : List ℚ) (p1 p2 : ℚ) (hp : p1 ≤ p2) :
    percentileIdx h p1 ≤ percentileIdx h p2 := by
  unfold percentileIdx
  apply findIdx_mono
  intro c hc
  simp only [decide_eq_true_eq] at hc ⊢
  have hdiv : p1 / 100 ≤ p2 / 100 := by linarith
  linarith

theorem percentileIdx_le_length (h : List ℚ) (p : ℚ) :
    percentileIdx h p ≤ h.length := by
  unfold percentileIdx
  calc _ ≤ (cumsumQ (h.map (fun c => c / h.sum))).length := List.findIdx_le_length _
  _ = h.length := by rw [cumsumQ_length, List.length_map]

/-- C7: for a fixed collected histogram (non-negative counts summing to a
positive total, one more sorted edge than counts), the percentile search
is monotone in the percentile: `p1 ≤ p2` gives
`threshold(p1) ≤ threshold(p2)`, both calls returning without error. -/
theorem c7_percentile_monotone (hist edges : List ℚ) (p1 p2 : ℚ)
    (hsorted : edges.Pairwise (· ≤ ·)) (hlen : edges.length = hist.length + 1)
    (hnonneg : ∀ q ∈ hist, 0 ≤ q) (hpos : 0 < hist.sum)
    (hp1 : 0 ≤ p1) (hp12 : p1 ≤ p2) (hp2 : p2 ≤ 100) :
    computeAmaxPercentile (some hist) (some edges) p1 =
      .ok (some (edges.getD (percentileIdx hist p1) 0), some hist, some edges) ∧
    computeAmaxPercentile (some hist) (some edges) p2 =
      .ok (some (edges.getD (percentileIdx hist p2) 0), some hist, some edges) ∧
    edges.getD (percentileIdx hist p1) 0 ≤ edges.getD (percentileIdx hist p2) 0 := by
  refine ⟨computeAmaxPercentile_eval _ _ p1 hp1 (le_trans hp12 hp2),
    computeAmaxPercentile_eval _ _ p2 (le_trans hp1 hp12) hp2, ?_⟩
  apply pairwise_le_getD edges hsorted _ _ (percentileIdx_mono hist p1 p2 hp12)
  have := percentileIdx_le_length hist p2
  omega

/-- C7 witness at histogram `[1,1]`, edges `[0,1,2]`, percentiles 50, 100. -/
theorem c7_witness :
    ([(0 : ℚ), 1, 2].Pairwise (· ≤ ·) ∧ (0 : ℚ) < [(1 : ℚ), 1].sum ∧
      (0 : ℚ) ≤ 50 ∧ (50 : ℚ) ≤ 100) ∧
    (computeAmaxPercentile (some [1, 1]) (some [0, 1, 2]) 50 =
      .ok (some ([(0 : ℚ), 1, 2].getD (percentileIdx [1, 1] 50) 0),
        some [1, 1], some [0, 1, 2]) ∧
    computeAmaxPercentile (some [1, 1]) (some [0, 1, 2]) 100 =
      .ok (some ([(0 : ℚ), 1, 2].getD (percentileIdx [1, 1] 100) 0),
        some [1, 1], some [0, 1, 2]) ∧
    [(0 : ℚ), 1, 2].getD (percentileIdx [1, 1] 50) 0 ≤
      [(0 : ℚ), 1, 2].getD (percentileIdx [1, 1] 100) 0) :=
  ⟨⟨by norm_num, by norm_num, by norm_num, by norm_num⟩,
    c7_percentile_monotone [1, 1] [0, 1, 2] 50 100 (by norm_num)
      (by norm_num) (by intro q hq; simp at hq; rw [hq]; norm_num)
      (by norm_num) (by norm_num) (by norm_num) (by norm_num)⟩

/-! ### The MSE search (C8, part of C5/C9) -/

theorem pyRange_length (a b s : ℕ) : (pyRange a b s).length = (b - a + s - 1) / s := by
  unfold pyRange
  simp

theorem pyRange_getD (a b s j : ℕ) (hj : j < (pyRange a b s).length) :
    (pyRange a b s).getD j 0 = a + s * j := by
  unfold pyRange
  rw [pyRange_length] at hj
  exact getD_map_range _ j _ 0 hj

theorem pyRange_ne_nil (a b s : ℕ) (hab : a < b) (hs : 1 ≤ s) :
    pyRange a b s ≠ [] := by
  apply List.ne_nil_of_length_pos
  rw [pyRange_length]
  have hle : s ≤ b - a + s - 1 := by omega
  exact (Nat.one_le_div_iff (by omega)).mpr hle

theorem pyRange_mem_bounds (a b s : ℕ) (hs : 1 ≤ s) :
    ∀ i ∈ pyRange a b s, a ≤ i ∧ i < b := by
  intro i hi
  unfold pyRange at hi
  rcases List.mem_map.mp hi with ⟨k, hk, rfl⟩
  rw [List.mem_range] at hk
  refine ⟨by omega, ?_⟩
  have h1 : k + 1 ≤ (b - a + s - 1) / s := hk
  have h2 : ((b - a + s - 1) / s) * s ≤ b - a + s - 1 := Nat.div_mul_le_self _ _
  have h3 : (k + 1) * s ≤ ((b - a + s - 1) / s) * s := Nat.mul_le_mul_right s h1
  have h4 : (k + 1) * s = k * s + s := by ring
  have h5 : s * k = k * s := by ring
  omega

theorem collectMses_int_ok (fqInt fqE4m3 : ℚ → ℚ → ℚ) (n : ℕ)
    (centers counts : List ℚ) : ∀ (cands : List ℕ),
    collectMses fqInt fqE4m3 (.int n) centers counts cands =
      .ok (cands.map (fun i => mseScoreAt fqInt centers counts (centers.getD i 0)))
  | [] => rfl
  | i :: rest => by
    rw [collectMses, collectMses_int_ok fqInt fqE4m3 n centers counts rest]
    rfl

/-- C8: the MSE search scores candidate cut indices
`start_bin, start_bin + stride, …` strictly below `len(centers)` over the
bin centers `(edges[i] + edges[i+1]) / 2`, each score being the
counts-weighted mean squared error between all centers and their images
under the fake-quantization oracle at tentative threshold `centers[i]`
(`mseScoreAt`); it selects the first candidate attaining the minimal
score (`np.argmin` takes the first occurrence on ties) and returns the
bin center at the selected index. -/
theorem c8_mse_search (fqInt fqE4m3 : ℚ → ℚ → ℚ) (counts edges : List ℚ)
    (n st sb : ℕ) (hst : 1 ≤ st) (hsb : sb < (centersOf edges).length) :
    computeAmaxMse fqInt fqE4m3 (some counts) (some edges) (.int n) st sb =
      .ok (some ((centersOf edges).getD
          (sb + st * argminIdx (mseScores fqInt (centersOf edges) counts st sb)) 0),
        some counts, some edges) ∧
    (mseScores fqInt (centersOf edges) counts st sb).getD
        (argminIdx (mseScores fqInt (centersOf edges) counts st sb)) 0 =
      listMin (mseScores fqInt (centersOf edges) counts st sb) ∧
    (∀ j, j < argminIdx (mseScores fqInt (centersOf edges) counts st sb) →
      listMin (mseScores fqInt (centersOf edges) counts st sb) <
        (mseScores fqInt (centersOf edges) counts st sb).getD j 0) := by
  have hargsne : pyRange sb (centersOf edges).length st ≠ [] :=
    pyRange_ne_nil sb (centersOf edges).length st hsb hst
  have hscoresne : mseScores fqInt (centersOf edges) counts st sb ≠ [] := by
    unfold mseScores
    simpa using hargsne
  have hlens : (mseScores fqInt (centersOf edges) counts st sb).length =
      (pyRange sb (centersOf edges).length st).length := by
    unfold mseScores
    rw [List.length_map]
  have ham : argminIdx (mseScores fqInt (centersOf edges) counts st sb) <
      (pyRange sb (centersOf edges).length st).length := by
    rw [← hlens]
    exact argminIdx_lt_length _ hscoresne
  refine ⟨?_, argminIdx_getD _ hscoresne, fun j hj => argminIdx_first _ j hj⟩
  simp only [computeAmaxMse, Option.getD_some]
  rw [collectMses_int_ok fqInt fqE4m3 n]
  rw [show (pyRange sb (centersOf edges).length st).map
      (fun i => mseScoreAt fqInt (centersOf edges) counts ((centersOf edges).getD i 0)) =
    mseScores fqInt (centersOf edges) counts st sb from rfl]
  show Except.ok (some ((centersOf edges).getD
      ((pyRange sb (centersOf edges).length st).getD
        (argminIdx (mseScores fqInt (centersOf edges) counts st sb)) 0) 0),
    some counts, some edges) = _
  rw [pyRange_getD sb (centersOf edges).length st _ ham]

/-- C8 witness at counts `[1,1]`, edges `[0,1,2]` (centers `[1/2, 3/2]`),
identity quantization oracle, `stride = 1`, `start_bin = 0`. -/
theorem c8_witness :
    (1 ≤ 1 ∧ 0 < (centersOf [(0 : ℚ), 1, 2]).length) ∧
    (computeAmaxMse (fun c _ => c) (fun _ _ => 0) (some [1, 1]) (some [0, 1, 2])
        (.int 8) 1 0 =
      .ok (some ((centersOf [(0 : ℚ), 1, 2]).getD
          (0 + 1 * argminIdx
            (mseScores (fun c _ => c) (centersOf [(0 : ℚ), 1, 2]) [1, 1] 1 0)) 0),
        some [1, 1], some [0, 1, 2]) ∧
    (mseScores (fun c _ => c) (centersOf [(0 : ℚ), 1, 2]) [1, 1] 1 0).getD
        (argminIdx (mseScores (fun c _ => c) (centersOf [(0 : ℚ), 1, 2]) [1, 1] 1 0)) 0 =
      listMin (mseScores (fun c _ => c) (centersOf [(0 : ℚ), 1, 2]) [1, 1] 1 0) ∧
    (∀ j, j < argminIdx (mseScores (fun c _ => c) (centersOf [(0 : ℚ), 1, 2]) [1, 1] 1 0) →
      listMin (mseScores (fun c _ => c) (centersOf [(0 : ℚ), 1, 2]) [1, 1] 1 0) <
        (mseScores (fun c _ => c) (centersOf [(0 : ℚ), 1, 2]) [1, 1] 1 0).getD j 0)) :=
  ⟨⟨le_refl 1, by norm_num [centersOf]⟩,
    c8_mse_search (fun c _ => c) (fun _ _ => 0) [1, 1] [0, 1, 2] 8 1 0 (le_refl 1)
      (by norm_num [centersOf])⟩

/-! ### Empty-state behaviour (C5) -/

/-- C5: on a collector that never collected (histogram and bin edges both
absent), each of the three searches returns `None` (for percentile, under
the claim's restriction `0 ≤ p ≤ 100`; the range check precedes the
empty-state check) and raises no error. -/
theorem c5_empty_state (div : List ℚ → List ℚ → ℚ) (fqInt fqE4m3 : ℚ → ℚ → ℚ)
    (nbE : ℕ) (nbM : NumBits) (u : Bool) (st sb : ℕ) (p : ℚ)
    (hp1 : 0 ≤ p) (hp2 : p ≤ 100) :
    computeAmaxEntropy div none none nbE u st sb = .ok (none, none, none) ∧
    computeAmaxMse fqInt fqE4m3 none none nbM st sb = .ok (none, none, none) ∧
    computeAmaxPercentile none none p = .ok (none, none, none) := by
  refine ⟨rfl, rfl, ?_⟩
  unfold computeAmaxPercentile
  rw [if_neg (by simp only [not_or, not_lt]; exact ⟨hp1, hp2⟩)]

/-- C5 witness at `percentile = 50` and concrete oracles. -/
theorem c5_witness :
    ((0 : ℚ) ≤ 50 ∧ (50 : ℚ) ≤ 100) ∧
    (computeAmaxEntropy (fun _ _ => 0) none none 8 false 1 128 =
        .ok (none, none, none) ∧
      computeAmaxMse (fun _ _ => 0) (fun _ _ => 0) none none (.int 8) 1 128 =
        .ok (none, none, none) ∧
      computeAmaxPercentile none none 50 = .ok (none, none, none)) :=
  ⟨⟨by norm_num, by norm_num⟩,
    c5_empty_state (fun _ _ => 0) (fun _ _ => 0) (fun _ _ => 0) 8 (.int 8) false
      1 128 50 (by norm_num) (by norm_num)⟩

/-! ### The entropy search: mass conservation -/

theorem listSum_map_range (n : ℕ) (f : ℕ → ℚ) :
    ((List.range n).map f).sum = ∑ j ∈ Finset.range n, f j := by
  induction n with
  | zero => simp
  | succ n ih =>
    rw [List.range_succ, List.map_append, List.sum_append, Finset.sum_range_succ, ih]
    simp

theorem sum_take_eq_range (l : List ℚ) : ∀ (i : ℕ), i ≤ l.length →
    (l.take i).sum = ∑ j ∈ Finset.range i, l.getD j 0
  | 0, _ => by simp
  | i + 1, h => by
    rw [List.take_succ, List.sum_append, Finset.sum_range_succ,
      sum_take_eq_range l i (by omega)]
    have hget : l[i]? = some l[i] := List.getElem?_eq_getElem (by omega)
    rw [hget, getD_eq_get l i 0 (by omega)]
    simp

theorem sum_set_getD (s : ℚ) : ∀ (l : List ℚ) (j : ℕ), j < l.length →
    (l.set j (l.getD j 0 + s)).sum = l.sum + s
  | [], j, h => by simp at h
  | a :: t, 0, _ => by
    simp only [List.set, List.getD_cons_zero, List.sum_cons]
    ring
  | a :: t, j + 1, h => by
    simp only [List.set, List.getD_cons_succ, List.sum_cons]
    rw [sum_set_getD s t j (by simpa using h)]
    ring

theorem linspaceQ_length (a b : ℚ) (n : ℕ) : (linspaceQ a b n).length = n + 1 := by
  unfold linspaceQ
  simp

theorem linspace_mem_zero (i nbins : ℕ) : (0 : ℚ) ∈ linspaceQ 0 (i : ℚ) nbins := by
  unfold linspaceQ
  exact List.mem_map.mpr ⟨0, List.mem_range.mpr (by omega), by norm_num⟩

theorem linspace_mem_top (i nbins : ℕ) (h : 1 ≤ nbins) :
    (i : ℚ) ∈ linspaceQ 0 (i : ℚ) nbins := by
  unfold linspaceQ
  refine List.mem_map.mpr ⟨nbins, List.mem_range.mpr (by omega), ?_⟩
  have hn : (nbins : ℚ) ≠ 0 := by
    have : (0 : ℚ) < (nbins : ℚ) := by exact_mod_cast h
    exact ne_of_gt this
  field_simp

theorem digitizeCount_pos (v : ℚ) (space : List ℚ)
    (h0 : (0 : ℚ) ∈ space) (hv : 0 ≤ v) : 1 ≤ digitizeCount v space := by
  unfold digitizeCount
  exact List.countP_pos_iff.mpr ⟨0, h0, by simpa⟩

theorem digitizeCount_lt (v : ℚ) (space : List ℚ) (e : ℚ)
    (he : e ∈ space) (hv : v < e) : digitizeCount v space < space.length := by
  unfold digitizeCount
  rcases lt_or_eq_of_le (List.countP_le_length (fun x => decide (x ≤ v)) (l := space))
    with hlt | heq
  · exact hlt
  · have := List.countP_eq_length.mp heq e he
    simp only [decide_eq_true_eq] at this
    linarith

theorem digitizedAt_neg1_iff (bins : List ℚ) (nbins i idx : ℕ) :
    digitizedAt bins nbins i idx = -1 ↔ bins.getD idx 0 = 0 := by
  unfold digitizedAt
  by_cases h : bins.getD idx 0 = 0
  · rw [if_pos h]
    exact ⟨fun _ => h, fun _ => rfl⟩
  · rw [if_neg h]
    have h1 : 1 ≤ digitizeCount (idx : ℚ) (linspaceQ 0 (i : ℚ) nbins) :=
      digitizeCount_pos _ _ (linspace_mem_zero i nbins) (by positivity)
    constructor
    · intro hcon
      omega
    · intro hcon
      exact absurd hcon h

theorem digitizedAt_nonneg (bins : List ℚ) (nbins i idx : ℕ)
    (h : bins.getD idx 0 ≠ 0) : 0 ≤ digitizedAt bins nbins i idx := by
  unfold digitizedAt
  rw [if_neg h]
  have h1 : 1 ≤ digitizeCount (idx : ℚ) (linspaceQ 0 (i : ℚ) nbins) :=
    digitizeCount_pos _ _ (linspace_mem_zero i nbins) (by positivity)
  omega

theorem digitizedAt_lt (bins : List ℚ) (nbins i idx : ℕ)
    (h : bins.getD idx 0 ≠ 0) (hidx : idx < i) (hn : 1 ≤ nbins) :
    digitizedAt bins nbins i idx < nbins := by
  unfold digitizedAt
  rw [if_neg h]
  have hlt : (idx : ℚ) < (i : ℚ) := by exact_mod_cast hidx
  have hcount := digitizeCount_lt (idx : ℚ) _ _ (linspace_mem_top i nbins hn) hlt
  rw [linspaceQ_length] at hcount
  omega

/-- The sum of `new_density` equals the mass of the first `i` bins: every
quantized group contributes `count * average = group sum`, zero bins
contribute their own zero. -/
theorem newDensity_sum (bins : List ℚ) (nbins i : ℕ)
    (h2 : i ≤ bins.length) (h3 : 1 ≤ nbins) :
    (newDensity bins nbins i).sum = (bins.take i).sum := by
  unfold newDensity
  rw [listSum_map_range]
  have step1 : ∑ j ∈ Finset.range i,
      (if digitizedAt bins nbins i j = -1 then 0
       else groupSum bins nbins i (digitizedAt bins nbins i j).toNat /
            (groupCount bins nbins i (digitizedAt bins nbins i j).toNat : ℚ)) =
      ∑ j ∈ (Finset.range i).filter (fun j => ¬ digitizedAt bins nbins i j = -1),
        groupSum bins nbins i (digitizedAt bins nbins i j).toNat /
          (groupCount bins nbins i (digitizedAt bins nbins i j).toNat : ℚ) := by
    rw [Finset.sum_filter]
    apply Finset.sum_congr rfl
    intro j _
    by_cases h : digitizedAt bins nbins i j = -1
    · rw [if_pos h, if_neg (by simpa using h)]
    · rw [if_neg h, if_pos h]
  rw [step1]
  have hmaps : ∀ j ∈ (Finset.range i).filter
      (fun j => ¬ digitizedAt bins nbins i j = -1),
      (digitizedAt bins nbins i j).toNat ∈ Finset.range nbins := by
    intro j hj
    rcases Finset.mem_filter.mp hj with ⟨hjr, hne⟩
    have hb : bins.getD j 0 ≠ 0 := fun h0 =>
      hne ((digitizedAt_neg1_iff bins nbins i j).mpr h0)
    have hlt := digitizedAt_lt bins nbins i j hb (Finset.mem_range.mp hjr) h3
    have hge := digitizedAt_nonneg bins nbins i j hb
    rw [Finset.mem_range]
    omega
  have hfibeq : ∀ k : ℕ,
      ((Finset.range i).filter (fun j => ¬ digitizedAt bins nbins i j = -1)).filter
        (fun j => (digitizedAt bins nbins i j).toNat = k) =
      (Finset.range i).filter (fun j => digitizedAt bins nbins i j = (k : ℤ)) := by
    intro k
    rw [Finset.filter_filter]
    apply Finset.filter_congr
    intro j hjr
    constructor
    · rintro ⟨hne, htn⟩
      have hb : bins.getD j 0 ≠ 0 := fun h0 =>
        hne ((digitizedAt_neg1_iff bins nbins i j).mpr h0)
      have hge := digitizedAt_nonneg bins nbins i j hb
      omega
    · intro heq
      rw [heq]
      omega
  have hfib := Finset.sum_fiberwise_of_maps_to hmaps
    (fun j => groupSum bins nbins i (digitizedAt bins nbins i j).toNat /
      (groupCount bins nbins i (digitizedAt bins nbins i j).toNat : ℚ))
  have hback := Finset.sum_fiberwise_of_maps_to hmaps (fun j => bins.getD j 0)
  have hinner : ∀ k ∈ Finset.range nbins,
      ∑ j ∈ ((Finset.range i).filter
          (fun j => ¬ digitizedAt bins nbins i j = -1)).filter
        (fun j => (digitizedAt bins nbins i j).toNat = k),
        groupSum bins nbins i (digitizedAt bins nbins i j).toNat /
          (groupCount bins nbins i (digitizedAt bins nbins i j).toNat : ℚ) =
      groupSum bins nbins i k := by
    intro k _
    rw [hfibeq k]
    have hconst : ∑ j ∈ (Finset.range i).filter
        (fun j => digitizedAt bins nbins i j = (k : ℤ)),
        groupSum bins nbins i (digitizedAt bins nbins i j).toNat /
          (groupCount bins nbins i (digitizedAt bins nbins i j).toNat : ℚ) =
      ∑ _j ∈ (Finset.range i).filter
        (fun j => digitizedAt bins nbins i j = (k : ℤ)),
        groupSum bins nbins i k / (groupCount bins nbins i k : ℚ) := by
      apply Finset.sum_congr rfl
      intro j hj
      rcases Finset.mem_filter.mp hj with ⟨_, hD⟩
      rw [hD]
      simp
    rw [hconst, Finset.sum_const, nsmul_eq_mul]
    rw [show ((Finset.range i).filter
        (fun j => digitizedAt bins nbins i j = (k : ℤ))).card =
      groupCount bins nbins i k from rfl]
    by_cases hC : groupCount bins nbins i k = 0
    · have hempty : (Finset.range i).filter
          (fun j => digitizedAt bins nbins i j = (k : ℤ)) = ∅ :=
        Finset.card_eq_zero.mp hC
      rw [hC]
      unfold groupSum
      rw [hempty]
      simp
    · have hCQ : (groupCount bins nbins i k : ℚ) ≠ 0 := by exact_mod_cast hC
      rw [mul_comm, div_mul_cancel₀ _ hCQ]
  have hSk : ∀ k ∈ Finset.range nbins,
      groupSum bins nbins i k =
      ∑ j ∈ ((Finset.range i).filter
          (fun j => ¬ digitizedAt bins nbins i j = -1)).filter
        (fun j => (digitizedAt bins nbins i j).toNat = k), bins.getD j 0 := by
    intro k _
    rw [hfibeq k]
    rfl
  calc ∑ j ∈ (Finset.range i).filter
        (fun j => ¬ digitizedAt bins nbins i j = -1),
        groupSum bins nbins i (digitizedAt bins nbins i j).toNat /
          (groupCount bins nbins i (digitizedAt bins nbins i j).toNat : ℚ)
      = ∑ k ∈ Finset.range nbins,
          ∑ j ∈ ((Finset.range i).filter
            (fun j => ¬ digitizedAt bins nbins i j = -1)).filter
            (fun j => (digitizedAt bins nbins i j).toNat = k),
          groupSum bins nbins i (digitizedAt bins nbins i j).toNat /
            (groupCount bins nbins i (digitizedAt bins nbins i j).toNat : ℚ) :=
        hfib.symm
    _ = ∑ k ∈ Finset.range nbins, groupSum bins nbins i k :=
        Finset.sum_congr rfl hinner
    _ = ∑ k ∈ Finset.range nbins,
          ∑ j ∈ ((Finset.range i).filter
            (fun j => ¬ digitizedAt bins nbins i j = -1)).filter
            (fun j => (digitizedAt bins nbins i j).toNat = k), bins.getD j 0 :=
        Finset.sum_congr rfl hSk
    _ = ∑ j ∈ (Finset.range i).filter
          (fun j => ¬ digitizedAt bins nbins i j = -1), bins.getD j 0 := hback
    _ = ∑ j ∈ Finset.range i, bins.getD j 0 := by
        rw [← Finset.sum_filter_add_sum_filter_not (Finset.range i)
          (fun j => digitizedAt bins nbins i j = -1) (fun j => bins.getD j 0)]
        have hz : ∑ j ∈ (Finset.range i).filter
            (fun j => digitizedAt bins nbins i j = -1), bins.getD j 0 = 0 := by
          apply Finset.sum_eq_zero
          intro j hj
          rcases Finset.mem_filter.mp hj with ⟨_, hD⟩
          exact (digitizedAt_neg1_iff bins nbins i j).mp hD
        rw [hz, zero_add]
    _ = (bins.take i).sum := (sum_take_eq_range bins i h2).symm

/-- `total_counts_new` always equals the total mass of `bins`. -/
theorem entropy_mass_new (bins : List ℚ) (nbins i : ℕ)
    (h2 : i ≤ bins.length) (h3 : 1 ≤ nbins) :
    entropyMassNew bins nbins i = bins.sum := by
  unfold entropyMassNew
  rw [newDensity_sum bins nbins i h2 h3, ← List.sum_append, List.take_append_drop]

/-- `total_counts_old` always equals the total mass of `bins`. -/
theorem entropy_mass_old (bins : List ℚ) (i : ℕ)
    (h1 : 1 ≤ i) (h2 : i ≤ bins.length) :
    entropyMassOld bins i = bins.sum := by
  simp only [entropyMassOld, referenceDensity]
  have hlen : (bins.take i).length = i := by
    rw [List.length_take]
    omega
  rw [sum_set_getD ((bins.drop i).sum) (bins.take i) (i - 1) (by omega),
    ← List.sum_append, List.take_append_drop]

/-! ### Integral histograms pass the entropy count check -/

theorem getD_map_cast : ∀ (ns : List ℕ) (j : ℕ),
    (ns.map (fun (n : ℕ) => (n : ℚ))).getD j 0 = ((ns.getD j 0 : ℕ) : ℚ)
  | [], j => by simp
  | n :: t, 0 => by simp
  | n :: t, j + 1 => by
    simp only [List.map_cons, List.getD_cons_succ]
    exact getD_map_cast t j

theorem map_set_cast : ∀ (ns : List ℕ) (j v : ℕ),
    (ns.map (fun (n : ℕ) => (n : ℚ))).set j (v : ℚ) = (ns.set j v).map (fun (n : ℕ) => (n : ℚ))
  | [], _, _ => by simp
  | n :: t, 0, v => by simp
  | n :: t, j + 1, v => by
    simp only [List.map_cons, List.set]
    rw [map_set_cast t j v]

theorem sum_map_cast : ∀ (ns : List ℕ),
    (ns.map (fun (n : ℕ) => (n : ℚ))).sum = ((ns.sum : ℕ) : ℚ)
  | [] => by simp
  | n :: t => by
    simp only [List.map_cons, List.sum_cons, List.sum_cons]
    rw [sum_map_cast t]
    push_cast
    ring

/-- `bins = calib_hist[:]; bins[0] = bins[1]` keeps an integral histogram
integral. -/
theorem entropy_bins_cast (ns : List ℕ) :
    (ns.map (fun (n : ℕ) => (n : ℚ))).set 0 ((ns.map (fun (n : ℕ) => (n : ℚ))).getD 1 0) =
      (ns.set 0 (ns.getD 1 0)).map (fun (n : ℕ) => (n : ℚ)) := by
  rw [getD_map_cast ns 1, map_set_cast]

theorem entropyStep_ok (div : List ℚ → List ℚ → ℚ) (ms : List ℕ) (nbins i : ℕ)
    (h1 : 1 ≤ i) (h2 : i ≤ ms.length) (h3 : 1 ≤ nbins) :
    entropyStep div (ms.map (fun (n : ℕ) => (n : ℚ))) nbins
        ((ms.map (fun (n : ℕ) => (n : ℚ))).sum) i =
      .ok (div (referenceDensity (ms.map (fun (n : ℕ) => (n : ℚ))) i)
        (newDensity (ms.map (fun (n : ℕ) => (n : ℚ))) nbins i)) := by
  have hlen : (ms.map (fun (n : ℕ) => (n : ℚ))).length = ms.length := List.length_map _ _
  have hnew := entropy_mass_new (ms.map (fun (n : ℕ) => (n : ℚ))) nbins i
    (by rw [hlen]; exact h2) h3
  have hold := entropy_mass_old (ms.map (fun (n : ℕ) => (n : ℚ))) i h1
    (by rw [hlen]; exact h2)
  unfold entropyStep
  rw [if_neg]
  push_neg
  constructor
  · rw [hnew, sum_map_cast, round_natCast]
    exact Int.cast_natCast ms.sum
  · rw [hold, sum_map_cast, round_natCast]
    exact Int.cast_natCast ms.sum

theorem collectDivs_ok (div : List ℚ → List ℚ → ℚ) (ms : List ℕ) (nbins : ℕ)
    (h3 : 1 ≤ nbins) : ∀ (cands : List ℕ), (∀ i ∈ cands, 1 ≤ i ∧ i ≤ ms.length) →
    collectDivs div (ms.map (fun (n : ℕ) => (n : ℚ))) nbins
        ((ms.map (fun (n : ℕ) => (n : ℚ))).sum) cands =
      .ok (cands.map (fun i => div (referenceDensity (ms.map (fun (n : ℕ) => (n : ℚ))) i)
        (newDensity (ms.map (fun (n : ℕ) => (n : ℚ))) nbins i)))
  | [], _ => rfl
  | i :: rest, hc => by
    rw [collectDivs,
      entropyStep_ok div ms nbins i (hc i (by simp)).1 (hc i (by simp)).2 h3,
      collectDivs_ok div ms nbins h3 rest (fun j hj => hc j (List.mem_cons_of_mem _ hj))]
    rfl

/-- Evaluating the entropy search on an integral histogram: the count
check passes at every candidate and the returned amax is the bin edge at
`lastArgminIdx divergences * stride + start_bin`. -/
theorem computeAmaxEntropy_ok (div : List ℚ → List ℚ → ℚ) (ns : List ℕ)
    (edges : List ℚ) (num_bits : ℕ) (u : Bool) (st sb : ℕ)
    (hsb : 1 ≤ sb) (hst : 1 ≤ st) :
    computeAmaxEntropy div (some (ns.map (fun (n : ℕ) => (n : ℚ)))) (some edges)
        num_bits u st sb =
      .ok (some (edges.getD
          (lastArgminIdx (entropyDivList div
              ((ns.set 0 (ns.getD 1 0)).map (fun (n : ℕ) => (n : ℚ)))
              (2 ^ (num_bits - 1 + (if u then 1 else 0))) st sb) * st + sb) 0),
        some ((ns.set 0 (ns.getD 1 0)).map (fun (n : ℕ) => (n : ℚ))), some edges) := by
  have hnbins : 1 ≤ 2 ^ (num_bits - 1 + (if u then 1 else 0)) :=
    Nat.one_le_two_pow
  have hc : ∀ i ∈ pyRange sb
      (((ns.set 0 (ns.getD 1 0)).map (fun (n : ℕ) => (n : ℚ))).length + 1) st,
      1 ≤ i ∧ i ≤ (ns.set 0 (ns.getD 1 0)).length := by
    intro i hi
    have hb := pyRange_mem_bounds _ _ _ hst i hi
    rw [List.length_map] at hb
    omega
  simp only [computeAmaxEntropy, Option.getD_some]
  rw [entropy_bins_cast ns]
  rw [collectDivs_ok div (ns.set 0 (ns.getD 1 0))
    (2 ^ (num_bits - 1 + (if u then 1 else 0))) hnbins _ hc]
  rfl

/-- C6: for every histogram of non-negative integer counts with at least
two bins, at every cut index `i` with `1 ≤ i ≤ len(counts)` (covering
every candidate for any `start_bin ≥ 1`), the unnormalized masses of both
constructed distributions equal the total collected count after the bin-0
replacement, so the entropy search's count-mismatch `RuntimeError` branch
is unreachable and the search returns without error. -/
theorem c6_entropy_mass_check (div : List ℚ → List ℚ → ℚ) (ns : List ℕ)
    (edges : List ℚ) (num_bits : ℕ) (u : Bool) (st sb : ℕ)
    (hlen : 2 ≤ ns.length) (hsb : 1 ≤ sb) (hst : 1 ≤ st) :
    (∀ i, 1 ≤ i → i ≤ ns.length →
      entropyMassNew ((ns.set 0 (ns.getD 1 0)).map (fun (n : ℕ) => (n : ℚ)))
          (2 ^ (num_bits - 1 + (if u then 1 else 0))) i =
        ((ns.set 0 (ns.getD 1 0)).map (fun (n : ℕ) => (n : ℚ))).sum ∧
      entropyMassOld ((ns.set 0 (ns.getD 1 0)).map (fun (n : ℕ) => (n : ℚ))) i =
        ((ns.set 0 (ns.getD 1 0)).map (fun (n : ℕ) => (n : ℚ))).sum) ∧
    ∀ e : CalibErr, computeAmaxEntropy div (some (ns.map (fun (n : ℕ) => (n : ℚ))))
      (some edges) num_bits u st sb ≠ .error e := by
  constructor
  · intro i h1 h2
    have hlen' : ((ns.set 0 (ns.getD 1 0)).map (fun (n : ℕ) => (n : ℚ))).length =
        ns.length := by
      rw [List.length_map, List.length_set]
    exact ⟨entropy_mass_new _ _ i (by omega) Nat.one_le_two_pow,
      entropy_mass_old _ i h1 (by omega)⟩
  · intro e hcontra
    rw [computeAmaxEntropy_ok div ns edges num_bits u st sb hsb hst] at hcontra
    cases hcontra

/-- C6 witness: histogram `[1, 2]`, `num_bits = 1`, `start_bin = 1`. -/
theorem c6_witness :
    (2 ≤ [1, 2].length ∧ 1 ≤ 1) ∧
    ((∀ i, 1 ≤ i → i ≤ [1, 2].length →
      entropyMassNew (([1, 2].set 0 ([1, 2].getD 1 0)).map (fun (n : ℕ) => (n : ℚ)))
          (2 ^ (1 - 1 + (if false then 1 else 0))) i =
        (([1, 2].set 0 ([1, 2].getD 1 0)).map (fun (n : ℕ) => (n : ℚ))).sum ∧
      entropyMassOld (([1, 2].set 0 ([1, 2].getD 1 0)).map (fun (n : ℕ) => (n : ℚ))) i =
        (([1, 2].set 0 ([1, 2].getD 1 0)).map (fun (n : ℕ) => (n : ℚ))).sum) ∧
    ∀ e : CalibErr, computeAmaxEntropy (fun _ _ => 0)
      (some ([1, 2].map (fun (n : ℕ) => (n : ℚ))))
      (some [0, 1, 2]) 1 false 1 1 ≠ .error e) :=
  ⟨⟨by norm_num, le_refl 1⟩,
    c6_entropy_mass_check (fun _ _ => 0) [1, 2] [0, 1, 2] 1 false 1 1
      (by norm_num) (le_refl 1) (le_refl 1)⟩

/-- C2: the entropy search evaluates candidate cut indices
`start_bin, start_bin + stride, …` up to `len(counts)` inclusive
(`entropyDivList` scores exactly `range(start_bin, len(bins) + 1,
stride)`); the selected position `lastArgminIdx divergences` attains the
minimal divergence, every position attaining the minimum is `≤` it (on
ties the largest candidate index wins), the corresponding candidate index
is `start_bin + stride * lastArgminIdx`, and the returned threshold is
the bin edge at that index — not interpolated. -/
theorem c2_entropy_tiebreak (div : List ℚ → List ℚ → ℚ) (ns : List ℕ)
    (edges : List ℚ) (num_bits : ℕ) (u : Bool) (st sb : ℕ)
    (hlen : 2 ≤ ns.length) (hsb : 1 ≤ sb) (hsb2 : sb ≤ ns.length) (hst : 1 ≤ st) :
    computeAmaxEntropy div (some (ns.map (fun (n : ℕ) => (n : ℚ)))) (some edges)
        num_bits u st sb =
      .ok (some (edges.getD
          (lastArgminIdx (entropyDivList div
              ((ns.set 0 (ns.getD 1 0)).map (fun (n : ℕ) => (n : ℚ)))
              (2 ^ (num_bits - 1 + (if u then 1 else 0))) st sb) * st + sb) 0),
        some ((ns.set 0 (ns.getD 1 0)).map (fun (n : ℕ) => (n : ℚ))), some edges) ∧
    (entropyDivList div ((ns.set 0 (ns.getD 1 0)).map (fun (n : ℕ) => (n : ℚ)))
        (2 ^ (num_bits - 1 + (if u then 1 else 0))) st sb).getD
      (lastArgminIdx (entropyDivList div
        ((ns.set 0 (ns.getD 1 0)).map (fun (n : ℕ) => (n : ℚ)))
        (2 ^ (num_bits - 1 + (if u then 1 else 0))) st sb)) 0 =
      listMin (entropyDivList div ((ns.set 0 (ns.getD 1 0)).map (fun (n : ℕ) => (n : ℚ)))
        (2 ^ (num_bits - 1 + (if u then 1 else 0))) st sb) ∧
    (∀ j, j < (entropyDivList div ((ns.set 0 (ns.getD 1 0)).map (fun (n : ℕ) => (n : ℚ)))
        (2 ^ (num_bits - 1 + (if u then 1 else 0))) st sb).length →
      (entropyDivList div ((ns.set 0 (ns.getD 1 0)).map (fun (n : ℕ) => (n : ℚ)))
          (2 ^ (num_bits - 1 + (if u then 1 else 0))) st sb).getD j 0 =
        listMin (entropyDivList div ((ns.set 0 (ns.getD 1 0)).map (fun (n : ℕ) => (n : ℚ)))
          (2 ^ (num_bits - 1 + (if u then 1 else 0))) st sb) →
      j ≤ lastArgminIdx (entropyDivList div
        ((ns.set 0 (ns.getD 1 0)).map (fun (n : ℕ) => (n : ℚ)))
        (2 ^ (num_bits - 1 + (if u then 1 else 0))) st sb)) ∧
    (pyRange sb (((ns.set 0 (ns.getD 1 0)).map (fun (n : ℕ) => (n : ℚ))).length + 1)
        st).getD
      (lastArgminIdx (entropyDivList div
        ((ns.set 0 (ns.getD 1 0)).map (fun (n : ℕ) => (n : ℚ)))
        (2 ^ (num_bits - 1 + (if u then 1 else 0))) st sb)) 0 =
      sb + st * lastArgminIdx (entropyDivList div
        ((ns.set 0 (ns.getD 1 0)).map (fun (n : ℕ) => (n : ℚ)))
        (2 ^ (num_bits - 1 + (if u then 1 else 0))) st sb) := by
  set bins := (ns.set 0 (ns.getD 1 0)).map (fun (n : ℕ) => (n : ℚ)) with hbins
  set nbins := 2 ^ (num_bits - 1 + (if u then 1 else 0)) with hnbins
  set D := entropyDivList div bins nbins st sb with hDdef
  have hblen : bins.length = ns.length := by
    rw [hbins, List.length_map, List.length_set]
  have hcand_ne : pyRange sb (bins.length + 1) st ≠ [] :=
    pyRange_ne_nil _ _ _ (by omega) hst
  have hDne : D ≠ [] := by
    rw [hDdef]
    unfold entropyDivList
    simpa using hcand_ne
  have hDlen : D.length = (pyRange sb (bins.length + 1) st).length := by
    rw [hDdef]
    unfold entropyDivList
    rw [List.length_map]
  have hlast_lt : lastArgminIdx D < D.length := by
    have hpos : 0 < D.length := List.length_pos.mpr hDne
    unfold lastArgminIdx
    omega
  refine ⟨computeAmaxEntropy_ok div ns edges num_bits u st sb hsb hst, ?_, ?_, ?_⟩
  · show D.getD (lastArgminIdx D) 0 = listMin D
    exact lastArgmin_getD D hDne
  · intro j hj hatt
    exact lastArgmin_ge_of_attains D j hj hatt
  · exact pyRange_getD _ _ _ _ (by rw [← hDlen]; exact hlast_lt)

/-- C2 witness: histogram `[1, 2]`, edges `[0, 1, 2]`, constant
divergence oracle (every candidate ties), `stride = start_bin = 1`. -/
theorem c2_witness :
    (2 ≤ [1, 2].length ∧ 1 ≤ 1 ∧ 1 ≤ [1, 2].length) ∧
    (computeAmaxEntropy (fun _ _ => 0) (some ([1, 2].map (fun (n : ℕ) => (n : ℚ))))
        (some [0, 1, 2]) 1 false 1 1 =
      .ok (some ([(0 : ℚ), 1, 2].getD
          (lastArgminIdx (entropyDivList (fun _ _ => 0)
              (([1, 2].set 0 ([1, 2].getD 1 0)).map (fun (n : ℕ) => (n : ℚ)))
              (2 ^ (1 - 1 + (if false then 1 else 0))) 1 1) * 1 + 1) 0),
        some (([1, 2].set 0 ([1, 2].getD 1 0)).map (fun (n : ℕ) => (n : ℚ))),
        some [0, 1, 2]) ∧
    (entropyDivList (fun _ _ => 0)
        (([1, 2].set 0 ([1, 2].getD 1 0)).map (fun (n : ℕ) => (n : ℚ)))
        (2 ^ (1 - 1 + (if false then 1 else 0))) 1 1).getD
      (lastArgminIdx (entropyDivList (fun _ _ => 0)
        (([1, 2].set 0 ([1, 2].getD 1 0)).map (fun (n : ℕ) => (n : ℚ)))
        (2 ^ (1 - 1 + (if false then 1 else 0))) 1 1)) 0 =
      listMin (entropyDivList (fun _ _ => 0)
        (([1, 2].set 0 ([1, 2].getD 1 0)).map (fun (n : ℕ) => (n : ℚ)))
        (2 ^ (1 - 1 + (if false then 1 else 0))) 1 1) ∧
    (∀ j, j < (entropyDivList (fun _ _ => 0)
        (([1, 2].set 0 ([1, 2].getD 1 0)).map (fun (n : ℕ) => (n : ℚ)))
        (2 ^ (1 - 1 + (if false then 1 else 0))) 1 1).length →
      (entropyDivList (fun _ _ => 0)
          (([1, 2].set 0 ([1, 2].getD 1 0)).map (fun (n : ℕ) => (n : ℚ)))
          (2 ^ (1 - 1 + (if false then 1 else 0))) 1 1).getD j 0 =
        listMin (entropyDivList (fun _ _ => 0)
          (([1, 2].set 0 ([1, 2].getD 1 0)).map (fun (n : ℕ) => (n : ℚ)))
          (2 ^ (1 - 1 + (if false then 1 else 0))) 1 1) →
      j ≤ lastArgminIdx (entropyDivList (fun _ _ => 0)
        (([1, 2].set 0 ([1, 2].getD 1 0)).map (fun (n : ℕ) => (n : ℚ)))
        (2 ^ (1 - 1 + (if false then 1 else 0))) 1 1)) ∧
    (pyRange 1 ((([1, 2].set 0 ([1, 2].getD 1 0)).map (fun (n : ℕ) => (n : ℚ))).length + 1)
        1).getD
      (lastArgminIdx (entropyDivList (fun _ _ => 0)
        (([1, 2].set 0 ([1, 2].getD 1 0)).map (fun (n : ℕ) => (n : ℚ)))
        (2 ^ (1 - 1 + (if false then 1 else 0))) 1 1)) 0 =
      1 + 1 * lastArgminIdx (entropyDivList (fun _ _ => 0)
        (([1, 2].set 0 ([1, 2].getD 1 0)).map (fun (n : ℕ) => (n : ℚ)))
        (2 ^ (1 - 1 + (if false then 1 else 0))) 1 1)) :=
  ⟨⟨by norm_num, le_refl 1, by norm_num⟩,
    c2_entropy_tiebreak (fun _ _ => 0) [1, 2] [0, 1, 2] 1 false 1 1
      (by norm_num) (le_refl 1) (by norm_num) (le_refl 1)⟩

/-- C9 (amended): the MSE and percentile searches hand the caller's
counts and bin-edges arrays back unchanged, but the entropy search is
*not* pure: `bins = calib_hist[:]` is a view and `bins[0] = bins[1]`
writes through it, so the caller's counts array comes back with its first
entry overwritten by the second; the edges array is unchanged. -/
theorem c9_search_purity (div : List ℚ → List ℚ → ℚ) (fqInt fqE4m3 : ℚ → ℚ → ℚ)
    (ns : List ℕ) (e : List ℚ) (p : ℚ) (nbE nM : ℕ) (u : Bool) (st sb : ℕ)
    (hp1 : 0 ≤ p) (hp2 : p ≤ 100) (hsb : 1 ≤ sb) (hst : 1 ≤ st)
    (hsbE : sb ≤ ns.length) (hsbM : sb < (centersOf e).length) :
    (∃ a, computeAmaxMse fqInt fqE4m3 (some (ns.map (fun (n : ℕ) => (n : ℚ))))
        (some e) (.int nM) st sb =
      .ok (a, some (ns.map (fun (n : ℕ) => (n : ℚ))), some e)) ∧
    (∃ a, computeAmaxPercentile (some (ns.map (fun (n : ℕ) => (n : ℚ)))) (some e) p =
      .ok (a, some (ns.map (fun (n : ℕ) => (n : ℚ))), some e)) ∧
    (∃ a, computeAmaxEntropy div (some (ns.map (fun (n : ℕ) => (n : ℚ)))) (some e)
        nbE u st sb =
      .ok (a, some ((ns.map (fun (n : ℕ) => (n : ℚ))).set 0
          ((ns.map (fun (n : ℕ) => (n : ℚ))).getD 1 0)), some e)) := by
  refine ⟨?_, ?_, ?_⟩
  · have hm : computeAmaxMse fqInt fqE4m3 (some (ns.map (fun (n : ℕ) => (n : ℚ))))
        (some e) (.int nM) st sb =
        .ok (some ((centersOf e).getD
            ((pyRange sb (centersOf e).length st).getD
              (argminIdx ((pyRange sb (centersOf e).length st).map
                (fun i => mseScoreAt fqInt (centersOf e)
                  (ns.map (fun (n : ℕ) => (n : ℚ))) ((centersOf e).getD i 0)))) 0) 0),
          some (ns.map (fun (n : ℕ) => (n : ℚ))), some e) := by
      simp only [computeAmaxMse, Option.getD_some]
      rw [collectMses_int_ok fqInt fqE4m3 nM]
    exact ⟨_, hm⟩
  · exact ⟨_, computeAmaxPercentile_eval _ e p hp1 hp2⟩
  · have hent := computeAmaxEntropy_ok div ns e nbE u st sb hsb hst
    rw [← entropy_bins_cast ns] at hent
    exact ⟨_, hent⟩

/-- C9 witness: a concrete run of all three searches. -/
theorem c9_witness :
    ((0 : ℚ) ≤ 50 ∧ (50 : ℚ) ≤ 100 ∧ 1 ≤ [1, 2].length ∧
      1 < (centersOf [(0 : ℚ), 1, 2]).length) ∧
    ((∃ a, computeAmaxMse (fun c _ => c) (fun _ _ => 0)
        (some ([1, 2].map (fun (n : ℕ) => (n : ℚ)))) (some [0, 1, 2]) (.int 8) 1 1 =
      .ok (a, some ([1, 2].map (fun (n : ℕ) => (n : ℚ))), some [0, 1, 2])) ∧
    (∃ a, computeAmaxPercentile (some ([1, 2].map (fun (n : ℕ) => (n : ℚ))))
        (some [0, 1, 2]) 50 =
      .ok (a, some ([1, 2].map (fun (n : ℕ) => (n : ℚ))), some [0, 1, 2])) ∧
    (∃ a, computeAmaxEntropy (fun _ _ => 0) (some ([1, 2].map (fun (n : ℕ) => (n : ℚ))))
        (some [0, 1, 2]) 1 false 1 1 =
      .ok (a, some (([1, 2].map (fun (n : ℕ) => (n : ℚ))).set 0
          (([1, 2].map (fun (n : ℕ) => (n : ℚ))).getD 1 0)), some [0, 1, 2]))) :=
  ⟨⟨by norm_num, by norm_num, by norm_num, by norm_num [centersOf]⟩,
    c9_search_purity (fun _ _ => 0) (fun c _ => c) (fun _ _ => 0) [1, 2] [0, 1, 2]
      50 1 8 false 1 1 (by norm_num) (by norm_num) (le_refl 1) (le_refl 1)
      (by norm_num) (by norm_num [centersOf])⟩

/-- C9 counterexample: the entropy search on counts `[5, 3]` returns the
counts array as `[3, 3]` — the caller's histogram was mutated
(`bins[0] = bins[1]` through the aliased slice), refuting purity of all
three searches. -/
theorem c9_counterexample :
    computeAmaxEntropy (fun _ _ => 0) (some [(5 : ℚ), 3]) (some [0, 1, 2]) 1 false 1 1 =
      .ok (some 2, some [(3 : ℚ), 3], some [0, 1, 2]) ∧
    [(3 : ℚ), 3] ≠ [(5 : ℚ), 3] := by
  constructor
  · have h := computeAmaxEntropy_ok (fun _ _ => 0) [5, 3] [0, 1, 2] 1 false 1 1
      (le_refl 1) (le_refl 1)
    rw [show [5, 3].map (fun (n : ℕ) => (n : ℚ)) = [(5 : ℚ), 3] by norm_num] at h
    rw [show ([5, 3].set 0 ([5, 3].getD 1 0)).map (fun (n : ℕ) => (n : ℚ)) =
      [(3 : ℚ), 3] by norm_num] at h
    rw [h]
    norm_num [entropyDivList, pyRange, lastArgminIdx, argminIdx, listMin,
      List.range_succ, List.getD]
  · intro hcon
    rw [List.cons.injEq] at hcon
    norm_num at hcon

/-! ### Per-channel weight calibration with `method = "max"` (C10) -/

theorem le_foldl_max : ∀ (l : List ℚ) (a : ℚ), a ≤ l.foldl max a
  | [], _ => le_refl _
  | x :: t, a => le_trans (le_max_left a x) (le_foldl_max t (max a x))

theorem mem_le_foldl_max : ∀ (l : List ℚ) (a x : ℚ), x ∈ l → x ≤ l.foldl max a
  | [], _, x, hx => absurd hx (List.not_mem_nil x)
  | y :: t, a, x, hx => by
    rcases List.mem_cons.mp hx with rfl | hx
    · exact le_trans (le_max_right a x) (le_foldl_max t (max a x))
    · exact mem_le_foldl_max t (max a y) x hx

theorem foldl_max_mem : ∀ (l : List ℚ) (a : ℚ), l.foldl max a = a ∨ l.foldl max a ∈ l
  | [], _ => Or.inl rfl
  | x :: t, a => by
    rcases foldl_max_mem t (max a x) with heq | hmem
    · rw [List.foldl_cons, heq]
      rcases max_cases a x with ⟨h, _⟩ | ⟨h, _⟩
      · exact Or.inl h
      · exact Or.inr (by rw [h]; exact List.mem_cons_self x t)
    · exact Or.inr (List.mem_cons_of_mem x (by rw [List.foldl_cons]; exact hmem))

theorem abs_le_maxAbs (l : List ℚ) (v : ℚ) (hv : v ∈ l) : |v| ≤ maxAbs l := by
  unfold maxAbs
  exact mem_le_foldl_max _ 0 _ (List.mem_map.mpr ⟨v, hv, rfl⟩)

theorem maxAbs_attained (l : List ℚ) (hne : l ≠ []) : ∃ v ∈ l, maxAbs l = |v| := by
  rcases foldl_max_mem (l.map (fun v => |v|)) 0 with heq | hmem
  · rcases List.exists_mem_of_ne_nil l hne with ⟨v0, hv0⟩
    refine ⟨v0, hv0, ?_⟩
    have hle : |v0| ≤ maxAbs l := abs_le_maxAbs l v0 hv0
    have hz : maxAbs l = 0 := heq
    have h0 : |v0| = 0 := le_antisymm (hz ▸ hle) (abs_nonneg v0)
    rw [hz, h0]
  · rcases List.mem_map.mp hmem with ⟨v, hv, hveq⟩
    exact ⟨v, hv, hveq.symm⟩

/-- C10: `calibrate_weights` with `method = "max"`, `perchannel = True` on
a 4-D weight with `c` output channels along axis 0 writes a tensor of
shape `[c, 1, 1, 1]` whose entries are the per-channel maximum absolute
values (an upper bound of each slice, attained in the slice); when the
tensor has exactly one element (`c = 1`) it is squeezed to a bare
scalar. -/
theorem c10_perchannel_max (c d1 d2 d3 : ℕ) (slices : List (List ℚ))
    (hc : slices.length = c) (hne : ∀ sl ∈ slices, sl ≠ []) :
    (2 ≤ c → calibrateWeightsMaxPerChannel c d1 d2 d3 slices =
      AmaxResult.tensor ⟨[c, 1, 1, 1], slices.map maxAbs⟩) ∧
    (c = 1 → calibrateWeightsMaxPerChannel c d1 d2 d3 slices =
      AmaxResult.scalar (maxAbs (slices.headD []))) ∧
    (∀ sl ∈ slices, (∀ v ∈ sl, |v| ≤ maxAbs sl) ∧ ∃ v ∈ sl, maxAbs sl = |v|) := by
  have hdata : (stackTensors [reduceAmaxChannel0 c d1 d2 d3 slices]).data =
      slices.map maxAbs := by
    simp [stackTensors, reduceAmaxChannel0]
  have hnumel : numelT (reshapeT (stackTensors [reduceAmaxChannel0 c d1 d2 d3 slices])
      [c, 1, 1, 1]) = c := by
    simp [numelT, reshapeT]
  refine ⟨?_, ?_, fun sl hsl =>
    ⟨fun v hv => abs_le_maxAbs sl v hv, maxAbs_attained sl (hne sl hsl)⟩⟩
  · intro hge
    unfold calibrateWeightsMaxPerChannel
    rw [if_neg (by rw [hnumel]; omega)]
    rw [show reshapeT (stackTensors [reduceAmaxChannel0 c d1 d2 d3 slices])
      [c, 1, 1, 1] = ⟨[c, 1, 1, 1],
        (stackTensors [reduceAmaxChannel0 c d1 d2 d3 slices]).data⟩ from rfl]
    rw [hdata]
  · intro h1
    unfold calibrateWeightsMaxPerChannel
    rw [if_pos (by rw [hnumel]; exact h1)]
    rw [show (reshapeT (stackTensors [reduceAmaxChannel0 c d1 d2 d3 slices])
      [c, 1, 1, 1]).data = (stackTensors [reduceAmaxChannel0 c d1 d2 d3 slices]).data
      from rfl]
    rw [hdata]
    cases slices with
    | nil => rw [h1] at hc; cases hc
    | cons a t => simp

/-- C10 witness: a weight with 4 channels (slices flattened). -/
theorem c10_witness :
    ([[(1 : ℚ), -2], [3], [0], [5]].length = 4 ∧
      ∀ sl ∈ [[(1 : ℚ), -2], [3], [0], [5]], sl ≠ []) ∧
    ((2 ≤ 4 → calibrateWeightsMaxPerChannel 4 2 1 1 [[(1 : ℚ), -2], [3], [0], [5]] =
      AmaxResult.tensor ⟨[4, 1, 1, 1], [[(1 : ℚ), -2], [3], [0], [5]].map maxAbs⟩) ∧
    (4 = 1 → calibrateWeightsMaxPerChannel 4 2 1 1 [[(1 : ℚ), -2], [3], [0], [5]] =
      AmaxResult.scalar (maxAbs ([[(1 : ℚ), -2], [3], [0], [5]].headD []))) ∧
    (∀ sl ∈ [[(1 : ℚ), -2], [3], [0], [5]],
      (∀ v ∈ sl, |v| ≤ maxAbs sl) ∧ ∃ v ∈ sl, maxAbs sl = |v|)) :=
  ⟨⟨rfl, by simp⟩,
    c10_perchannel_max 4 2 1 1 [[(1 : ℚ), -2], [3], [0], [5]] rfl (by simp)⟩

end HistCalib

